import Mathlib

/-!
Verification of the matching and resolution core of the dsr-compliance
repository: the source classifier and resolver (ib_resolver.py), the
multi-pass section mapper (section_mapper.py) and the similarity store
(vector_store.py), shallowly embedded over lists of characters.
-/

namespace Dsrc

/-- Strings of the Python source are modelled as lists of characters. -/
abbrev Str := List Char

/-- Whitespace class of Python regular expressions and of `str.strip`
(ASCII range, as exercised by this repository). -/
def isSpace (c : Char) : Bool :=
  c = ' ' || c = '\t' || c = '\n' || c = '\r' || c = Char.ofNat 11 || c = Char.ofNat 12

/-- ASCII word characters, embedding the regex word class used by the
word-boundary assertions of the source. -/
def isWordChar (c : Char) : Bool :=
  c.isAlpha || c.isDigit || c = '_'

/-- Apostrophe character, used by literal texts of the source. -/
def apos : Char := Char.ofNat 39

/-- Case-insensitive literal match, embedding an IGNORECASE literal atom:
consumes `pat` from the front of `s`, comparing lower-cased characters, and
returns the remainder on success. -/
def matchCI : Str → Str → Option Str
  | [], s => some s
  | _ :: _, [] => none
  | p :: ps, c :: cs => if c.toLower = p.toLower then matchCI ps cs else none

/-- Embedding of Python `str.strip` (both ends). -/
def stripWs (s : Str) : Str :=
  ((s.dropWhile isSpace).reverse.dropWhile isSpace).reverse

/-- Substring test: `pat` occurs contiguously inside `s` (Python `in`). -/
def isSubstr : Str → Str → Bool
  | pat, [] => pat.isEmpty
  | pat, c :: cs => pat.isPrefixOf (c :: cs) || isSubstr pat cs

/-- Embedding of a trailing regex `\s*$` (MULTILINE, so the dollar matches at
the end of the text or before a newline): given the whitespace run `w` that
follows the previous atom and whether the text ends right after `w`, returns
how many characters of `w` the greedy match consumes, or `none` when no
position inside `w` satisfies the anchor.  The engine prefers the longest
viable prefix of `w`: all of it when at the end of input, else up to (and
excluding) the last newline inside `w`. -/
def dollarSpan (w : Str) (atEnd : Bool) : Option Nat :=
  if atEnd then some w.length
  else
    let trail := (w.reverse.takeWhile (fun c => c ≠ '\n')).length
    if trail = w.length then none else some (w.length - trail - 1)

/-- Literal text of the brochure header pattern (case-sensitive). -/
def kwInvBrochure : Str :=
  "Investigator".data ++ [apos] ++ "s Brochure:".data

/-- Literal text of the confidentiality banner pattern. -/
def kwConfidential : Str := "CONFIDENTIAL".data

/-- Matcher for the brochure header boilerplate pattern, a line that starts
with the literal header text followed by the rest of the line.  Returns the
length of the match when the pattern matches at this line start. -/
def matchHeaderIB (l : Str) : Option Nat :=
  if kwInvBrochure.isPrefixOf l then
    some (kwInvBrochure.length +
      ((l.drop kwInvBrochure.length).takeWhile (fun c => c ≠ '\n')).length)
  else none

/-- Matcher for the confidentiality banner pattern: optional whitespace, the
banner word, optional whitespace, end of line. -/
def matchConfidential (l : Str) : Option Nat :=
  let w := l.takeWhile isSpace
  let r := l.drop w.length
  if kwConfidential.isPrefixOf r then
    let r2 := r.drop kwConfidential.length
    let w2 := r2.takeWhile isSpace
    let rest := r2.drop w2.length
    match dollarSpan w2 rest.isEmpty with
    | some n => some (w.length + kwConfidential.length + n)
    | none => none
  else none

/-- Matcher for the version stamp pattern: the words Version and Number, a
number, a comma, a word, and a four-digit year, then end of line. -/
def matchVersion (l : Str) : Option Nat :=
  if ("Version".data).isPrefixOf l then
    let r1 := l.drop 7
    let w1 := r1.takeWhile isSpace
    if w1.isEmpty then none else
    let r2 := r1.drop w1.length
    if ("Number".data).isPrefixOf r2 then
      let r3 := r2.drop 6
      let w2 := r3.takeWhile isSpace
      if w2.isEmpty then none else
      let r4 := r3.drop w2.length
      let d1 := r4.takeWhile Char.isDigit
      if d1.isEmpty then none else
      let r5 := r4.drop d1.length
      match r5 with
      | ',' :: r6 =>
        let w3 := r6.takeWhile isSpace
        if w3.isEmpty then none else
        let r7 := r6.drop w3.length
        let wd := r7.takeWhile isWordChar
        if wd.isEmpty then none else
        let r8 := r7.drop wd.length
        let w4 := r8.takeWhile isSpace
        if w4.isEmpty then none else
        let r9 := r8.drop w4.length
        let d2 := r9.takeWhile Char.isDigit
        if d2.length = 4 then
          let r10 := r9.drop 4
          let w5 := r10.takeWhile isSpace
          let rest := r10.drop w5.length
          match dollarSpan w5 rest.isEmpty with
          | some n =>
            some (7 + w1.length + 6 + w2.length + d1.length + 1 + w3.length +
              wd.length + w4.length + 4 + n)
          | none => none
        else none
      | _ => none
    else none
  else none

/-- Matcher for the standalone page-number pattern: optional whitespace, one
to three digits, optional whitespace, end of line. -/
def matchPageNum (l : Str) : Option Nat :=
  let w := l.takeWhile isSpace
  let r := l.drop w.length
  let d := r.takeWhile Char.isDigit
  if d.isEmpty || 3 < d.length then none else
  let r2 := r.drop d.length
  let w2 := r2.takeWhile isSpace
  let rest := r2.drop w2.length
  match dollarSpan w2 rest.isEmpty with
  | some n => some (w.length + d.length + n)
  | none => none

/-- Literal hyphen alternatives of the periodic-report header pattern. -/
def isReportHyphen (c : Char) : Bool :=
  c = '-' || c = Char.ofNat 8208 || c = Char.ofNat 8211

/-- Matcher for the periodic benefit-risk report header pattern
(case-insensitive), a line starting with the report name. -/
def matchReportHeader (l : Str) : Option Nat :=
  match matchCI ("periodic".data) l with
  | none => none
  | some r1 =>
    let w1 := r1.takeWhile isSpace
    if w1.isEmpty then none else
    match matchCI ("benefit".data) (r1.drop w1.length) with
    | none => none
    | some r2 =>
      match r2 with
      | c :: r3 =>
        if isReportHyphen c then
          match matchCI ("risk".data) r3 with
          | some r4 =>
            some (l.length - r4.length + (r4.takeWhile (fun x => x ≠ '\n')).length)
          | none => none
        else none
      | [] => none

/-- Scanner embedding `re.sub(pattern, empty, text)` for a pattern anchored at
line starts (MULTILINE caret): at every line-start position the matcher is
tried; a match is deleted and scanning resumes after it, other characters are
kept.  The fuel is the length of the text. -/
def subGo (m : Str → Option Nat) : Nat → Bool → Str → Str
  | 0, _, s => s
  | _ + 1, _, [] => []
  | fuel + 1, atStart, c :: cs =>
    if atStart then
      match m (c :: cs) with
      | some n =>
        if n = 0 then c :: subGo m fuel (c == '\n') cs
        else subGo m fuel (((c :: cs).getD (n - 1) ' ') == '\n') ((c :: cs).drop n)
      | none => c :: subGo m fuel (c == '\n') cs
    else c :: subGo m fuel (c == '\n') cs

/-- Run a line-start anchored deleting substitution over a whole text. -/
def applySub (m : Str → Option Nat) (s : Str) : Str :=
  subGo m s.length true s

/-- Matcher for the interior of the two-number page-footer pattern: optional
whitespace, one to three digits, whitespace containing a newline, optional
whitespace, one to three digits, optional whitespace, then a newline or the
end of the text.  Returns the matched length. -/
def matchFooterBody (l : Str) : Option Nat :=
  let w1 := l.takeWhile isSpace
  let r1 := l.drop w1.length
  let d1 := r1.takeWhile Char.isDigit
  if d1.isEmpty || 3 < d1.length then none else
  let r2 := r1.drop d1.length
  let w2 := r2.takeWhile isSpace
  let trail2 := (w2.reverse.takeWhile (fun c => c ≠ '\n')).length
  if trail2 = w2.length then none else
  let used2 := w2.length - trail2
  let r3 := r2.drop used2
  let w3 := r3.takeWhile isSpace
  let r4 := r3.drop w3.length
  let d2 := r4.takeWhile Char.isDigit
  if d2.isEmpty || 3 < d2.length then none else
  let r5 := r4.drop d2.length
  let w4 := r5.takeWhile isSpace
  let rest := r5.drop w4.length
  if rest.isEmpty then
    some (w1.length + d1.length + used2 + w3.length + d2.length + w4.length)
  else
    let trail4 := (w4.reverse.takeWhile (fun c => c ≠ '\n')).length
    if trail4 = w4.length then none
    else some (w1.length + d1.length + used2 + w3.length + d2.length +
      (w4.length - trail4))

/-- Scanner for the page-footer pattern, which is anchored at the start of the
text or at a newline (the newline is part of the match). -/
def subFooterGo (m : Str → Option Nat) : Nat → Str → Str
  | 0, s => s
  | _ + 1, [] => []
  | fuel + 1, c :: cs =>
    if c = '\n' then
      match m cs with
      | some n => subFooterGo m fuel (cs.drop n)
      | none => c :: subFooterGo m fuel cs
    else c :: subFooterGo m fuel cs

/-- Run the page-footer substitution: the start-of-text alternative is tried
once, then every newline position. -/
def applyFooterSub (s : Str) : Str :=
  match matchFooterBody s with
  | some n => subFooterGo matchFooterBody s.length (s.drop n)
  | none => subFooterGo matchFooterBody s.length s

/-- Collapse runs of three or more newlines into exactly two, embedding the
final substitution of the cleaner. -/
def collapseNl : Nat → Str → Str
  | 0, s => s
  | _ + 1, [] => []
  | fuel + 1, c :: cs =>
    if c = '\n' then
      let run := cs.takeWhile (fun x => x = '\n')
      let rest := cs.drop run.length
      (if 2 ≤ run.length then ['\n', '\n'] else '\n' :: run) ++ collapseNl fuel rest
    else c :: collapseNl fuel cs

/-- Embedding of `clean_source_text`: the six boilerplate substitutions in
source order, then newline collapsing, then stripping. -/
def cleanSourceText (t : Str) : Str :=
  stripWs (collapseNl t.length
    (applySub matchReportHeader
      (applyFooterSub
        (applySub matchPageNum
          (applySub matchVersion
            (applySub matchConfidential
              (applySub matchHeaderIB t)))))))

/-- Maximal-munch parser for a dotted-decimal number (one or more digits, then
any number of dot-digits groups).  Backtracking cannot help the surrounding
patterns here, because any shorter capture leaves a digit or a dot in front of
a tail that only accepts whitespace or a parenthesis. -/
def numTail : Str → Str × Str
  | [] => ([], [])
  | [c] => if c.isDigit then ([c], []) else ([], [c])
  | c :: c2 :: cs =>
    if c.isDigit then
      let (a, r) := numTail (c2 :: cs)
      (c :: a, r)
    else if c = '.' && c2.isDigit then
      let (a, r) := numTail cs
      ('.' :: c2 :: a, r)
    else ([], c :: c2 :: cs)

/-- Full-string dotted-decimal test, embedding the validation pattern used on
each split token of a compound reference. -/
def isDottedNum (s : Str) : Bool :=
  match s with
  | [] => false
  | c :: _ => c.isDigit && (numTail s).2.isEmpty

/-- Embedding of the tail of the section patterns: optional whitespace, an
optional parenthetical description (whose interior cannot cross a newline),
optional whitespace, end of string.  The dollar of these patterns also accepts
a position before a final newline, which the whitespace class already covers. -/
def tailOk (s : Str) : Bool :=
  match s.dropWhile isSpace with
  | [] => true
  | '(' :: r =>
    match r.reverse.dropWhile isSpace with
    | ')' :: mid => mid.all (fun c => c ≠ '\n')
    | _ => false
  | _ => false

/-- Embedding of the optional section keyword of the reference patterns: the
plural form is preferred, then the singular, then nothing, each followed by
optional whitespace.  The engine would backtrack across these alternatives,
but a longer alternative that fails leaves the next character equal to a
letter, on which the shorter alternatives fail as well. -/
def afterSectionKw (r2 : Str) : Str :=
  match matchCI ("sections".data) r2 with
  | some x => x.dropWhile isSpace
  | none =>
    match matchCI ("section".data) r2 with
    | some x => x.dropWhile isSpace
    | none => r2

/-- Shared tail of the IB and PBRER section patterns: optional keyword, a
captured dotted-decimal number, then the optional parenthetical tail. -/
def sectionNumPart (r2 : Str) : Option Str :=
  match afterSectionKw r2 with
  | [] => none
  | c :: cs =>
    if c.isDigit then
      let (num, rest) := numTail (c :: cs)
      if tailOk rest then some num else none
    else none

/-- Embedding of the IB section reference pattern. -/
def matchIBSection (s : Str) : Option Str :=
  match matchCI ("ib".data) (s.dropWhile isSpace) with
  | none => none
  | some r1 => sectionNumPart (r1.dropWhile isSpace)

/-- Embedding of the IB table reference pattern (a prefix match: anything may
follow the table number). -/
def matchIBTable (s : Str) : Option Str :=
  match matchCI ("ib".data) (s.dropWhile isSpace) with
  | none => none
  | some r1 =>
    match matchCI ("table".data) (r1.dropWhile isSpace) with
    | none => none
    | some r2 =>
      let d := (r2.dropWhile isSpace).takeWhile Char.isDigit
      if d.isEmpty then none else some d

/-- Embedding of the bare IB pattern. -/
def matchBareIB (s : Str) : Bool :=
  match matchCI ("ib".data) (s.dropWhile isSpace) with
  | some r => (r.dropWhile isSpace).isEmpty
  | none => false

/-- Embedding of the PBRER section reference pattern. -/
def matchPBRERSection (s : Str) : Option Str :=
  match matchCI ("pbrer".data) (s.dropWhile isSpace) with
  | none => none
  | some r1 => sectionNumPart (r1.dropWhile isSpace)

/-- Known external source keywords of the classifier. -/
def externalKeywords : List Str :=
  ["uptodate".data, "medline".data, "embase".data,
   "company safety database".data, "signal assessment".data]

def kIb : String := "ib"

def kIbTable : String := "ib_table"

def kPbrer : String := "pbrer"

def kExternal : String := "external"

def kUnknown : String := "unknown"

/-- Embedding of `classify_source`: the reference patterns are tried in source
order (IB section, IB table, bare IB, PBRER section, a PBRER word prefix,
external keywords), falling through to the unknown kind. -/
def classifySource (source : Str) : String × Option Str :=
  match matchIBSection source with
  | some n => (kIb, some n)
  | none =>
    match matchIBTable source with
    | some n => (kIbTable, some n)
    | none =>
      if matchBareIB source then (kIb, none)
      else
        match matchPBRERSection source with
        | some n => (kPbrer, some n)
        | none =>
          let stripped := stripWs source
          if (matchCI ("pbrer".data) stripped).isSome then (kPbrer, none)
          else
            let lower := stripped.map Char.toLower
            if externalKeywords.any (fun kw => isSubstr kw lower) then (kExternal, none)
            else (kUnknown, none)

/-- Embedding of the parenthetical-stripping substitution of the expander: a
single left-to-right pass removing each parenthesis group that closes before
any further closing parenthesis. -/
def removeParens : Nat → Str → Str
  | 0, s => s
  | _ + 1, [] => []
  | fuel + 1, c :: cs =>
    if c = '(' then
      let inside := cs.takeWhile (fun x => x ≠ ')')
      match cs.drop inside.length with
      | _ :: tail => removeParens fuel tail
      | [] => c :: removeParens fuel cs
    else c :: removeParens fuel cs

/-- Character class of the compound-reference capture groups. -/
def inCompoundSet (c : Char) : Bool :=
  c.isDigit || c = '.' || c = ',' || isSpace c || c = '/' || c = '&'

/-- Embedding of the capture of a compound pattern on the remainder `r` after
the keyword.  On the parenthesis-stripped, stripped input the optional
parenthetical of the tail can never match, so the lazy dot must reach the end
of the string: the capture is all of `r`, and a match exists precisely when
`r` starts inside the character class and no newline occurs after the class
prefix (a lazy dot cannot cross a newline).  Leading whitespace that the
engine would keep outside the capture is immaterial, because every split
token is stripped before validation. -/
def compoundGroup (r : Str) : Option Str :=
  match r with
  | [] => none
  | c :: _ =>
    if inCompoundSet c && (r.dropWhile inCompoundSet).all (fun x => x ≠ '\n') then
      some r
    else none

/-- Embedding of the compound IB pattern match and capture (the section
keyword is mandatory here). -/
def compoundIBGroup (cleaned : Str) : Option Str :=
  match matchCI ("ib".data) (cleaned.dropWhile isSpace) with
  | none => none
  | some r1 =>
    let r2 := r1.dropWhile isSpace
    match matchCI ("sections".data) r2 with
    | some x =>
      match compoundGroup x with
      | some g => some g
      | none =>
        match matchCI ("section".data) r2 with
        | some y => compoundGroup y
        | none => none
    | none =>
      match matchCI ("section".data) r2 with
      | some y => compoundGroup y
      | none => none

/-- Embedding of the compound PBRER pattern match and capture (the section
keyword is optional: the engine falls back to capturing right after the
PBRER word). -/
def compoundPBRERGroup (cleaned : Str) : Option Str :=
  match matchCI ("pbrer".data) (cleaned.dropWhile isSpace) with
  | none => none
  | some r1 =>
    let r2 := r1.dropWhile isSpace
    match matchCI ("sections".data) r2 with
    | some x =>
      match compoundGroup x with
      | some g => some g
      | none =>
        match matchCI ("section".data) r2 with
        | some y =>
          match compoundGroup y with
          | some g => some g
          | none => compoundGroup r1
        | none => compoundGroup r1
    | none =>
      match matchCI ("section".data) r2 with
      | some y =>
        match compoundGroup y with
        | some g => some g
        | none => compoundGroup r1
      | none => compoundGroup r1

def nonWordBefore : Option Char → Bool
  | none => true
  | some c => !isWordChar c

def nonWordAfter : Str → Bool
  | [] => true
  | c :: _ => !isWordChar c

/-- Scanner embedding the split of a compound capture on a comma, ampersand,
slash, or a word-bounded lowercase word `and`. -/
def splitGo : Nat → Option Char → Str → Str → List Str
  | 0, _, acc, s => [acc ++ s]
  | _ + 1, _, acc, [] => [acc]
  | fuel + 1, prev, acc, c :: cs =>
    if c = ',' || c = '&' || c = '/' then acc :: splitGo fuel (some c) [] cs
    else if c = 'a' then
      match cs with
      | 'n' :: 'd' :: rest =>
        if nonWordBefore prev && nonWordAfter rest then
          acc :: splitGo fuel (some 'd') [] rest
        else splitGo fuel (some c) (acc ++ [c]) cs
      | _ => splitGo fuel (some c) (acc ++ [c]) cs
    else splitGo fuel (some c) (acc ++ [c]) cs

def splitSeps (s : Str) : List Str := splitGo s.length none [] s

/-- Split a compound capture, strip and validate each token, and rebuild the
fully qualified references with the given prefix text. -/
def compoundBuild (pre : Str) (g : Str) : List Str :=
  (((splitSeps g).map stripWs).filter isDottedNum).map (fun n => pre ++ n)

/-- Embedding of `_expand_compound_refs`: parentheticals are stripped, the IB
compound pattern is tried, then the PBRER compound pattern; an expansion is
returned only when it holds more than one validated number, otherwise the
reference is returned unchanged. -/
def expandCompoundRefs (ref : Str) : List Str :=
  let stripped := stripWs ref
  let cleaned := stripWs (removeParens stripped.length stripped)
  let ibR :=
    match compoundIBGroup cleaned with
    | some g => compoundBuild ("IB Section ".data) g
    | none => []
  if 1 < ibR.length then ibR
  else
    let pbR :=
      match compoundPBRERGroup cleaned with
      | some g => compoundBuild ("PBRER ".data) g
      | none => []
    if 1 < pbR.length then pbR else [ref]

/-- Result of resolving a single source reference. -/
structure ResolvedSource where
  original_ref : Str
  source_type : String
  section_num : Option Str
  content : Str
  found : Bool
deriving DecidableEq

/-- Evidence content index: a mapping from locator to raw text, modelled as an
insertion-ordered association list with unique keys. -/
abbrev Index := List (Str × Str)

/-- Embedding of a Python dict lookup on an index. -/
def indexGet (idx : Index) (k : Str) : Option Str :=
  (idx.find? (fun p => p.1 == k)).map (fun p => p.2)

/-- Match of the word-bounded table search pattern at one position of the
content (a word boundary, the literal word Table, optional whitespace, the
table number, a word boundary). -/
def tableAt (num : Str) (prevNonWord : Bool) (l : Str) : Bool :=
  prevNonWord && ("Table".data).isPrefixOf l &&
    (let r := (l.drop 5).dropWhile isSpace
     num.isPrefixOf r && nonWordAfter (r.drop num.length))

def searchTableGo (num : Str) : Nat → Bool → Str → Bool
  | 0, _, _ => false
  | _ + 1, _, [] => false
  | fuel + 1, prevNW, c :: cs =>
    tableAt num prevNW (c :: cs) || searchTableGo num fuel (!isWordChar c) cs

/-- Embedding of the scan for the table reference pattern inside an index
value (an unanchored search over every position). -/
def containsTableRef (num : Str) (content : Str) : Bool :=
  searchTableGo num content.length true content

def kNeedPre : Str := "[ADDITIONAL DATA NEEDED: ".data

def quoteStr (s : Str) : Str := [apos] ++ s ++ [apos]

def phTableMissing (num : Str) : Str :=
  kNeedPre ++ "IB Table ".data ++ num ++
    " was referenced but could not be located in the extracted IB content.]".data

def phIbMissing (n : Str) : Str :=
  kNeedPre ++ "IB Section ".data ++ n ++
    " was referenced but not found in the extracted IB index. Provide the content from Investigator".data ++
    [apos] ++ "s Brochure section ".data ++ n ++ ".]".data

def phBareIb : Str :=
  kNeedPre ++ "The Investigator".data ++ [apos] ++
    "s Brochure was referenced without a specific section number. Review the IB and provide the relevant content for this section.]".data

def phPbrerNum (n : Str) : Str :=
  kNeedPre ++ "PBRER Section ".data ++ n ++
    " was referenced but could not be resolved. Provide the PBRER PDF via --pbrer flag or manually supply the content from PBRER section ".data ++
    n ++ ".]".data

def phPbrerBare (r : Str) : Str :=
  kNeedPre ++ r ++
    " — provide the PBRER PDF via --pbrer flag or manually supply the relevant PBRER content for this section.]".data

def phExternalMissing (r : Str) : Str :=
  kNeedPre ++ "External source ".data ++ quoteStr r ++
    " was referenced but no matching entry was found in the literature index. Provide this data via --literature flag with a JSON file containing a ".data ++
    quoteStr r ++ " key.]".data

def phExternalNoIndex (r : Str) : Str :=
  kNeedPre ++ "External source ".data ++ quoteStr r ++
    " was referenced. Provide literature data via --literature flag with a JSON file containing a ".data ++
    quoteStr r ++ " key.]".data

def phUnknown (r : Str) : Str :=
  kNeedPre ++ "Source ".data ++ quoteStr r ++
    " could not be classified or resolved. Manually provide the content for this reference.]".data

/-- Unresolved PBRER record (the placeholder depends on whether a section
number was classified). -/
def pbrerMissRec (ref : Str) (sn : Option Str) : ResolvedSource :=
  match sn with
  | some n => ⟨ref, kPbrer, some n, phPbrerNum n, false⟩
  | none => ⟨ref, kPbrer, none, phPbrerBare (stripWs ref), false⟩

/-- Embedding of one iteration of the resolution loop of `resolve_sources`:
classify the expanded reference, then resolve it against the index the kind
selects, producing exactly one record, a placeholder one on every miss. -/
def resolveOne (ibIndex : Index) (pb : Option Index) (lit : Option Index)
    (ref : Str) : ResolvedSource :=
  let cls := classifySource ref
  let st := cls.1
  let sn := cls.2
  if st = kIbTable then
    let num := sn.getD []
    match ibIndex.find? (fun p => containsTableRef num p.2) with
    | some p => ⟨ref, kIb, none, cleanSourceText p.2, true⟩
    | none => ⟨ref, kIb, none, phTableMissing num, false⟩
  else if st = kIb then
    match sn with
    | some n =>
      match indexGet ibIndex n with
      | some text => ⟨ref, st, some n, cleanSourceText text, true⟩
      | none => ⟨ref, st, some n, phIbMissing n, false⟩
    | none => ⟨ref, st, none, phBareIb, false⟩
  else if st = kPbrer then
    match pb, sn with
    | some pbIdx, some n =>
      match indexGet pbIdx n with
      | some text => ⟨ref, st, some n, cleanSourceText text, true⟩
      | none => pbrerMissRec ref sn
    | _, _ => pbrerMissRec ref sn
  else if st = kExternal then
    match lit with
    | some l =>
      if l.isEmpty then ⟨ref, st, none, phExternalNoIndex (stripWs ref), false⟩
      else
        let refLower := (stripWs ref).map Char.toLower
        match l.find? (fun p =>
            isSubstr (p.1.map Char.toLower) refLower ||
            isSubstr refLower (p.1.map Char.toLower)) with
        | some p => ⟨ref, st, none, p.2, true⟩
        | none => ⟨ref, st, none, phExternalMissing (stripWs ref), false⟩
    | none => ⟨ref, st, none, phExternalNoIndex (stripWs ref), false⟩
  else ⟨ref, st, none, phUnknown (stripWs ref), false⟩

/-- Expansion loop of `resolve_sources`: every reference is compound-expanded
and the pieces are concatenated in order. -/
def expandAll (required : List Str) : List Str :=
  required.foldl (fun acc r => acc ++ expandCompoundRefs r) []

/-- Embedding of `resolve_sources`: expand all references, then resolve each
expanded reference in order, appending exactly one record per reference. -/
def resolveSources (required : List Str) (ibIndex : Index) (pb : Option Index)
    (lit : Option Index) : List ResolvedSource :=
  if required.isEmpty then []
  else (expandAll required).foldl
    (fun results ref => results ++ [resolveOne ibIndex pb lit ref]) []

/-- DSR source section.  Modelled from the spec: owned by the extraction
collaborator (its module is not part of the sources at hand); the fields are
those the mapper reads. -/
structure DSRSection where
  section_num : Str
  title : Str
  file : Str
  content : Str
deriving DecidableEq

/-- Template section.  Modelled from the spec: owned by the template-parsing
collaborator; the fields are those the mapper reads. -/
structure TemplateSection where
  section_id : Str
  title : Str
deriving DecidableEq

/-- Mapping-table entry.  Modelled from the spec: an author-declared link from
a DSR section id to a template section id with justifying citations. -/
structure MappingTableEntry where
  dsr_section_id : Str
  dsr_title : Str
  source_refs : List Str
deriving DecidableEq

/-- Section mapping record.  Modelled from the spec: exactly one is produced
per input DSR section.  The confidence is a rational in place of the float of
the source, `none` standing for an absent value. -/
structure SectionMapping where
  dsr_section : Str
  dsr_title : Str
  dsr_file : Str
  template_section : Option Str
  template_title : Option Str
  match_method : Str
  confidence : Option ℚ
  notes : Str
deriving DecidableEq

def kMappingTable : Str := "mapping_table".data

def kExactTitle : Str := "exact_title".data

def kTitleMatch : Str := "title_match".data

def kVectorSim : Str := "vector_similarity".data

def kNoMatchM : Str := "no_match".data

/-- Embedding of the title normalization of the mapper: lowercase, keep only
lowercase letters, digits and whitespace, strip. -/
def normalizeTitle (s : Str) : Str :=
  stripWs ((s.map Char.toLower).filter
    (fun c => ('a' ≤ c && c ≤ 'z') || c.isDigit || isSpace c))

/-- Whitespace word splitter (Python `str.split` with no separator). -/
def wordsGo : Nat → Str → List Str
  | 0, _ => []
  | fuel + 1, s =>
    let s1 := s.dropWhile isSpace
    if s1.isEmpty then []
    else
      let w := s1.takeWhile (fun c => !(isSpace c))
      w :: wordsGo fuel (s1.drop w.length)

def wordsOf (s : Str) : List Str := wordsGo s.length s

/-- Embedding of the keyword-overlap score: the size of the intersection of
the two word sets over the size of the smaller set. -/
def keywordOverlap (a b : Str) : ℚ :=
  let wa := (wordsOf (normalizeTitle a)).dedup
  let wb := (wordsOf (normalizeTitle b)).dedup
  if wa.isEmpty || wb.isEmpty then 0
  else ((wa.filter (fun w => wb.contains w)).length : ℚ) / ((min wa.length wb.length : Nat) : ℚ)

/-- Mapping state of the cascade: an insertion-ordered dictionary from DSR
section number to its mapping, modelled as an association list (every
insertion of the source is guarded by a membership test, so keys stay
unique). -/
abbrev Mappings := List (Str × SectionMapping)

def mContains (m : Mappings) (k : Str) : Bool := m.any (fun p => p.1 == k)

def mFind (m : Mappings) (k : Str) : Option SectionMapping :=
  (m.find? (fun p => p.1 == k)).map (fun p => p.2)

/-- One pass of the cascade: fold the pass over its items, appending the new
mapping the step produces, if any. -/
def runPass (f : Mappings → α → Option (Str × SectionMapping)) (xs : List α)
    (m : Mappings) : Mappings :=
  xs.foldl (fun acc x =>
    match f acc x with
    | none => acc
    | some kv => acc ++ [kv]) m

/-- Lookup in a dictionary built by comprehension from a list: a later entry
with the same key overwrites an earlier one. -/
def lastEntryFor (es : List MappingTableEntry) (k : Str) : Option MappingTableEntry :=
  es.foldl (fun r e => if e.dsr_section_id == k then some e else r) none

/-- Lookup in the template dictionary keyed by section id (later duplicate
keys overwrite earlier ones, as in a dict comprehension). -/
def lastTmplById (ts : List TemplateSection) (k : Str) : Option TemplateSection :=
  ts.foldl (fun r t => if t.section_id == k then some t else r) none

/-- Lookup in the template dictionary keyed by normalized title (later
duplicate keys overwrite earlier ones, as in the dict-building loop of the
exact pass). -/
def lastTmplByTitle (ts : List TemplateSection) (key : Str) : Option TemplateSection :=
  ts.foldl (fun r t => if normalizeTitle t.title == key then some t else r) none

def joinCommaSp : List Str → Str
  | [] => []
  | [x] => x
  | x :: xs => x ++ ", ".data ++ joinCommaSp xs

/-- Decimal rendering of a non-negative rational with `p` digits after the
point.  This renders the score texts of the notes fields; the exact digits of
the float formatting of the source are immaterial to every specified
property. -/
def formatScoreAt (p : Nat) (q : ℚ) : Str :=
  let n := (q * ((10 : ℚ) ^ p)).floor.toNat
  let frac := Nat.toDigits 10 (n % 10 ^ p)
  Nat.toDigits 10 (n / 10 ^ p) ++ ['.'] ++
    List.replicate (p - frac.length) '0' ++ frac

/-- Pass 0 step: explicit mapping-table match for one unmapped DSR section. -/
def passMappingTableStep (entries : List MappingTableEntry)
    (tmpl : List TemplateSection) (acc : Mappings) (d : DSRSection) :
    Option (Str × SectionMapping) :=
  if mContains acc d.section_num then none
  else
    match lastEntryFor entries d.section_num with
    | none => none
    | some e =>
      match lastTmplById tmpl e.dsr_section_id with
      | none => none
      | some t =>
        some (d.section_num,
          { dsr_section := d.section_num, dsr_title := d.title, dsr_file := d.file,
            template_section := some t.section_id, template_title := some t.title,
            match_method := kMappingTable, confidence := some 1,
            notes := "Explicit mapping table: sources=".data ++ joinCommaSp e.source_refs })

def passMappingTable (dsr : List DSRSection) (tmpl : List TemplateSection)
    (entries : List MappingTableEntry) (m : Mappings) : Mappings :=
  runPass (passMappingTableStep entries tmpl) dsr m

/-- Pass 1 step: normalized exact title match for one unmapped DSR section,
against the title dictionary in which a later template with the same
normalized title has overwritten an earlier one. -/
def passExactStep (tmpl : List TemplateSection) (acc : Mappings)
    (d : DSRSection) : Option (Str × SectionMapping) :=
  if mContains acc d.section_num then none
  else
    match lastTmplByTitle tmpl (normalizeTitle d.title) with
    | none => none
    | some t =>
      some (d.section_num,
        { dsr_section := d.section_num, dsr_title := d.title, dsr_file := d.file,
          template_section := some t.section_id, template_title := some t.title,
          match_method := kExactTitle, confidence := none,
          notes := "Exact title match".data })

def passExact (dsr : List DSRSection) (tmpl : List TemplateSection)
    (m : Mappings) : Mappings :=
  runPass (passExactStep tmpl) dsr m

/-- Best fuzzy candidate: the first template whose score strictly exceeds all
earlier scores, starting from a zero best score and no candidate. -/
def bestFuzzy (tmpl : List TemplateSection) (title : Str) :
    Option TemplateSection × ℚ :=
  tmpl.foldl (fun st t =>
    let score := keywordOverlap title t.title
    if st.2 < score then (some t, score) else st) (none, 0)

/-- Pass 2 (keyword fallback) step for one unmapped DSR section. -/
def passFuzzyStep (tmpl : List TemplateSection) (acc : Mappings)
    (d : DSRSection) : Option (Str × SectionMapping) :=
  if mContains acc d.section_num then none
  else
    let bt := bestFuzzy tmpl d.title
    match bt.1 with
    | some t =>
      if (1 : ℚ)/2 ≤ bt.2 then
        some (d.section_num,
          { dsr_section := d.section_num, dsr_title := d.title, dsr_file := d.file,
            template_section := some t.section_id, template_title := some t.title,
            match_method := kTitleMatch, confidence := none,
            notes := "Fuzzy keyword match (score=".data ++ formatScoreAt 2 bt.2 ++ ")".data })
      else none
    | none => none

def passFuzzy (dsr : List DSRSection) (tmpl : List TemplateSection)
    (m : Mappings) : Mappings :=
  runPass (passFuzzyStep tmpl) dsr m

/-- One similarity search hit handed back by the vector store. -/
structure SearchResult where
  metadata : List (Str × Str)
  score : ℚ

/-- Python dict `get` with a default on a search-hit metadata dictionary. -/
def metaGetD (md : List (Str × Str)) (k : Str) : Str :=
  ((md.find? (fun p => p.1 == k)).map (fun p => p.2)).getD []

/-- Pass 2 (vector) step for one unmapped DSR section; the store query is the
title followed by the first two hundred characters of the content, and the
search itself (three template-filtered neighbours) is the collaborator
function `vs`. -/
def passVectorStep (vs : Str → List SearchResult) (acc : Mappings)
    (d : DSRSection) : Option (Str × SectionMapping) :=
  if mContains acc d.section_num then none
  else
    match (vs (d.title ++ [' '] ++ d.content.take 200)).head? with
    | some best =>
      if (3 : ℚ)/4 ≤ best.score then
        some (d.section_num,
          { dsr_section := d.section_num, dsr_title := d.title, dsr_file := d.file,
            template_section := some (metaGetD best.metadata ("section_id".data)),
            template_title := some (metaGetD best.metadata ("title".data)),
            match_method := kVectorSim, confidence := some best.score,
            notes := "Vector similarity score=".data ++ formatScoreAt 3 best.score })
      else none
    | none => none

def passVector (vs : Str → List SearchResult) (dsr : List DSRSection)
    (m : Mappings) : Mappings :=
  runPass (passVectorStep vs) dsr m

/-- One match record of the reasoning collaborator of pass 3, with the
defaults of the source already applied to absent keys. -/
structure ApiMatch where
  dsr_section : Str
  template_section : Option Str
  template_title : Option Str
  match_method : Str
  notes : Str
deriving DecidableEq

/-- Pass 3 step: record a collaborator match when its DSR section id is
non-empty and still unmapped; the title and file are recovered from the
unmatched list computed at the start of the pass. -/
def passApiStep (unmatched : List DSRSection) (acc : Mappings)
    (mt : ApiMatch) : Option (Str × SectionMapping) :=
  if mt.dsr_section.isEmpty || mContains acc mt.dsr_section then none
  else
    let dsrObj := unmatched.find? (fun d => d.section_num == mt.dsr_section)
    some (mt.dsr_section,
      { dsr_section := mt.dsr_section,
        dsr_title := (dsrObj.map (fun d => d.title)).getD [],
        dsr_file := (dsrObj.map (fun d => d.file)).getD [],
        template_section := mt.template_section,
        template_title := mt.template_title,
        match_method := mt.match_method,
        confidence := none,
        notes := mt.notes })

/-- Pass 3: when no section is unmapped the collaborator is not consulted at
all; otherwise every returned match is folded in. -/
def passApi (dsr : List DSRSection) (apiMatches : List ApiMatch)
    (m : Mappings) : Mappings :=
  let unmatched := dsr.filter (fun d => !(mContains m d.section_num))
  if unmatched.isEmpty then m
  else runPass (passApiStep unmatched) apiMatches m

/-- Residual step: a synthetic no-match record for a still unmapped section. -/
def residualStep (acc : Mappings) (d : DSRSection) :
    Option (Str × SectionMapping) :=
  if mContains acc d.section_num then none
  else
    some (d.section_num,
      { dsr_section := d.section_num, dsr_title := d.title, dsr_file := d.file,
        template_section := none, template_title := none,
        match_method := kNoMatchM, confidence := none,
        notes := "No template analog identified".data })

def residualPass (dsr : List DSRSection) (m : Mappings) : Mappings :=
  runPass residualStep dsr m

/-- Pass 0 of `map_sections`: the mapping table pass runs only when entries
were passed and are non-empty (the truthiness test of the source). -/
def stage0 (dsr : List DSRSection) (tmpl : List TemplateSection)
    (entries : Option (List MappingTableEntry)) : Mappings :=
  match entries with
  | some es => if es.isEmpty then [] else passMappingTable dsr tmpl es []
  | none => []

/-- Pass 2 of `map_sections`: exactly one of the vector and keyword
strategies runs, depending on the presence of a store. -/
def stage2 (dsr : List DSRSection) (tmpl : List TemplateSection)
    (vs : Option (Str → List SearchResult)) (m1 : Mappings) : Mappings :=
  match vs with
  | some f => passVector f dsr m1
  | none => passFuzzy dsr tmpl m1

/-- The four matching passes of `map_sections` in source order. -/
def mapStages (dsr : List DSRSection) (tmpl : List TemplateSection)
    (apiMatches : List ApiMatch) (entries : Option (List MappingTableEntry))
    (vs : Option (Str → List SearchResult)) : Mappings :=
  passApi dsr apiMatches
    (stage2 dsr tmpl vs (passExact dsr tmpl (stage0 dsr tmpl entries)))

/-- Final ordering of `map_sections`: one record per DSR section number, in
DSR order, kept only when present in the mapping dictionary. -/
def finalize (dsr : List DSRSection) (m : Mappings) : List SectionMapping :=
  (dsr.map (fun d => d.section_num)).filterMap (fun sn => mFind m sn)

/-- Embedding of `map_sections`: the pass cascade, the residual no-match
fill-in, then the final ordering. -/
def mapSections (dsr : List DSRSection) (tmpl : List TemplateSection)
    (apiMatches : List ApiMatch) (entries : Option (List MappingTableEntry))
    (vs : Option (Str → List SearchResult)) : List SectionMapping :=
  finalize dsr (residualPass dsr (mapStages dsr tmpl apiMatches entries vs))

/-- Vector of the similarity store, with rational entries in place of
floats. -/
abbrev Vec := List ℚ

/-- Metadata dictionary of one stored document. -/
abbrev MetaDict := List (Str × Str)

/-- State of the similarity store: the vector set and the parallel metadata
list. -/
structure VSState where
  index : List Vec
  metadata : List MetaDict
deriving DecidableEq

/-- Python dict update `m` with one key set, overwriting in place or
appending. -/
def dictSet (m : MetaDict) (k v : Str) : MetaDict :=
  if m.any (fun p => p.1 == k) then
    m.map (fun p => if p.1 == k then (k, v) else p)
  else m ++ [(k, v)]

/-- Embedding of `VectorStore.add_documents`: an empty text list returns at
once; mismatched lengths signal an invalid-argument failure; otherwise the
embedded vectors are appended and the metadata, augmented with the source
type, is extended.  The embedding provider is the collaborator `embed`. -/
def addDocuments (embed : List Str → List Vec) (st : VSState)
    (texts : List Str) (metadata : List MetaDict) (sourceType : Str) :
    Except Str VSState :=
  if texts.isEmpty then Except.ok st
  else if texts.length ≠ metadata.length then
    Except.error ("texts (".data ++ Nat.toDigits 10 texts.length ++
      ") and metadata (".data ++ Nat.toDigits 10 metadata.length ++
      ") must have same length".data)
  else
    Except.ok
      { index := st.index ++ embed texts,
        metadata := st.metadata ++
          metadata.map (fun m => dictSet m ("source_type".data) sourceType) }

/-- Embedding of `VectorStore.load`.  A file is `none` when absent, and
carries an error when reading or parsing it raises.  The source assigns the
loaded index before reading the metadata file, so a metadata failure leaves
the already replaced index behind; a missing file or an index read failure
leaves the state untouched.  The boolean is the return value. -/
def loadStore (idxFile : Option (Except Unit (List Vec)))
    (metaFile : Option (Except Unit (List MetaDict))) (st : VSState) :
    VSState × Bool :=
  match idxFile, metaFile with
  | none, _ => (st, false)
  | some _, none => (st, false)
  | some ir, some mr =>
    match ir with
    | Except.error _ => (st, false)
    | Except.ok idx =>
      match mr with
      | Except.error _ => ({ st with index := idx }, false)
      | Except.ok md => ({ index := idx, metadata := md }, true)

/-- Offline embedding matrix: the generator recreated from the fixed seed on
every call is modelled by the fixed sample stream `stream`; row `i`, column
`j` of the matrix for `n` texts of dimension `dim` reads sample
`i * dim + j`, so the matrix depends only on `n` and `dim`. -/
def dryRunMatrix (stream : Nat → Int) (dim n : Nat) : List (List Int) :=
  (List.range n).map (fun i => (List.range dim).map (fun j => stream (i * dim + j)))

/-- Embedding of `VectorStore._get_embeddings`: in dry-run mode, or when no
client was handed in, the seeded offline matrix is produced and normalized
(the normalization over reals is the collaborator `normalizeRows`);
otherwise the network embedding collaborator is consulted on the texts
truncated to eight thousand characters. -/
def getEmbeddings (stream : Nat → Int)
    (normalizeRows : List (List Int) → List Vec)
    (apiEmbed : List Str → List Vec) (dryRun : Bool) (clientPresent : Bool)
    (dim : Nat) (texts : List Str) : List Vec :=
  if dryRun || !clientPresent then
    normalizeRows (dryRunMatrix stream dim texts.length)
  else apiEmbed (texts.map (fun t => t.take 8000))

/-- Case relation of an IGNORECASE literal: a character agrees with a pattern
character up to lower-casing. -/
def lcEq (c b : Char) : Prop := c.toLower = b.toLower

instance (c b : Char) : Decidable (lcEq c b) :=
  inferInstanceAs (Decidable (c.toLower = b.toLower))

/-- Separators a compound citation may use between its numbers. -/
inductive Sep where
  | comma
  | amp
  | slash
  | andW
deriving DecidableEq

/-- Rendering of a separator inside a citation string. -/
def sepStr : Sep → Str
  | Sep.comma => ", ".data
  | Sep.amp => " & ".data
  | Sep.slash => "/".data
  | Sep.andW => " and ".data

/-- Rendering of the tail of a compound citation: each further number behind
its separator. -/
def jn (parts : List (Sep × Str)) : Str :=
  parts.foldr (fun p r => sepStr p.1 ++ p.2 ++ r) []

/-- A compound IB citation built from a first number and separated further
numbers. -/
def mkIBCompound (n0 : Str) (parts : List (Sep × Str)) : Str :=
  "IB Sections ".data ++ n0 ++ jn parts

/-- A compound PBRER citation built from a first number and separated further
numbers, using the plural section keyword. -/
def mkPBCompound (n0 : Str) (parts : List (Sep × Str)) : Str :=
  "PBRER Sections ".data ++ n0 ++ jn parts

/-- Expected token list of the separator split of a compound capture: each
number carries the whitespace its separator rendering leaves around it. -/
def toksA (acc n : Str) : List (Sep × Str) → List Str
  | [] => [acc ++ n]
  | (Sep.comma, m) :: rest => (acc ++ n) :: toksA [' '] m rest
  | (Sep.slash, m) :: rest => (acc ++ n) :: toksA [] m rest
  | (Sep.amp, m) :: rest => (acc ++ n ++ [' ']) :: toksA [' '] m rest
  | (Sep.andW, m) :: rest => (acc ++ n ++ [' ']) :: toksA [' '] m rest

/-- Last character seen after scanning `n`, starting from `prev`. -/
def prevA : Str → Option Char → Option Char
  | [], p => p
  | c :: cs, _ => prevA cs (some c)

/-- Default mapping record (for indexed access in statements). -/
def noneSM : SectionMapping := ⟨[], [], [], none, none, [], none, []⟩

/-- Default resolution record (for indexed access in statements). -/
def noneRS : ResolvedSource := ⟨[], kUnknown, none, [], false⟩

theorem foldl_append_map {α β : Type} (f : α → β) (xs : List α) (acc : List β) :
    xs.foldl (fun r x => r ++ [f x]) acc = acc ++ xs.map f := by
  induction xs generalizing acc with
  | nil => simp
  | cons x xs ih => simp [ih]

theorem resolveSources_eq_map (req : List Str) (ib : Index) (pb lit : Option Index) :
    resolveSources req ib pb lit = (expandAll req).map (resolveOne ib pb lit) := by
  cases req with
  | nil => rfl
  | cons r rs =>
    show ((expandAll (r :: rs)).foldl (fun results ref => results ++ [resolveOne ib pb lit ref]) []) = _
    simpa using foldl_append_map (resolveOne ib pb lit) (expandAll (r :: rs)) []

theorem resolveOne_original_ref (ib : Index) (pb lit : Option Index) (ref : Str) :
    (resolveOne ib pb lit ref).original_ref = ref := by
  simp only [resolveOne, pbrerMissRec]
  repeat' split
  all_goals rfl

theorem isPrefixOf_append_self (a b : Str) : a.isPrefixOf (a ++ b) = true := by
  rw [List.isPrefixOf_iff_prefix]
  exact List.prefix_append a b

theorem resolveOne_placeholder (ib : Index) (pb lit : Option Index) (ref : Str) :
    (resolveOne ib pb lit ref).found = false →
    kNeedPre.isPrefixOf (resolveOne ib pb lit ref).content = true := by
  simp only [resolveOne, pbrerMissRec]
  repeat' split
  all_goals intro h
  all_goals
    simp_all [phTableMissing, phIbMissing, phBareIb, phPbrerNum, phPbrerBare,
      phExternalMissing, phExternalNoIndex, phUnknown, List.append_assoc,
      isPrefixOf_append_self]

/-- C2: for every input list of citation strings and any combination of
provided and absent indices, resolve_sources returns exactly one record per
expanded citation, in expansion order (the embedding is a total function, so
no call raises), and every unresolved record carries the deterministic
additional-data-needed placeholder text instead of an exception. -/
theorem resolve_sources_one_per_expanded (req : List Str) (ib : Index)
    (pb lit : Option Index) :
    (resolveSources req ib pb lit).length = (expandAll req).length ∧
    (∀ i : Nat, ((resolveSources req ib pb lit)[i]?).map (fun r => r.original_ref)
      = (expandAll req)[i]?) ∧
    (∀ r ∈ resolveSources req ib pb lit, r.found = false →
      kNeedPre.isPrefixOf r.content = true) := by
  refine ⟨?_, ?_, ?_⟩
  · rw [resolveSources_eq_map]; simp
  · intro i
    rw [resolveSources_eq_map, List.getElem?_map]
    cases h : (expandAll req)[i]? with
    | none => rfl
    | some x => simp [resolveOne_original_ref]
  · intro r hr hf
    rw [resolveSources_eq_map] at hr
    obtain ⟨x, _, rfl⟩ := List.mem_map.mp hr
    exact resolveOne_placeholder ib pb lit x hf

set_option maxRecDepth 4000 in
/-- Witness for C2 at a concrete unresolvable citation. -/
theorem resolve_sources_one_per_expanded_witness :
    (resolveSources (["IB 9.9".data]) [] none none).length
      = (expandAll (["IB 9.9".data])).length ∧
    kNeedPre.isPrefixOf
      ((resolveSources (["IB 9.9".data]) [] none none).getD 0 noneRS).content = true := by
  refine ⟨(resolve_sources_one_per_expanded (["IB 9.9".data]) [] none none).1, ?_⟩
  exact (resolve_sources_one_per_expanded (["IB 9.9".data]) [] none none).2.2
    ((resolveSources (["IB 9.9".data]) [] none none).getD 0 noneRS)
    (by decide) (by decide)

/-- C8 (amended): add_documents signals the invalid-argument failure exactly
when the text list is non-empty and the lengths differ; an empty text list
returns at once with the state unchanged, even when the metadata list is
non-empty. -/
theorem add_documents_error_iff (embed : List Str → List Vec) (st : VSState)
    (texts : List Str) (metadata : List MetaDict) (sourceType : Str) :
    ((addDocuments embed st texts metadata sourceType).isOk
      = (texts.isEmpty || texts.length == metadata.length)) ∧
    (texts = [] → addDocuments embed st texts metadata sourceType = Except.ok st) := by
  constructor
  · rcases texts with _ | ⟨t, ts⟩
    · simp [addDocuments, Except.isOk, Except.toBool]
    · by_cases hl : ts.length + 1 = metadata.length
      · simp [addDocuments, Except.isOk, Except.toBool, hl]
      · simp [addDocuments, Except.isOk, Except.toBool, hl]
  · intro h; subst h; rfl

/-- Witness for C8 (amended) at concrete inputs. -/
theorem add_documents_error_iff_witness :
    ((addDocuments (fun _ => []) ⟨[], []⟩ (["a".data]) [] ("t".data)).isOk
      = ((["a".data] : List Str).isEmpty || (["a".data] : List Str).length == ([] : List MetaDict).length)) ∧
    addDocuments (fun _ => []) ⟨[], []⟩ [] [] ("t".data) = Except.ok ⟨[], []⟩ := by
  exact ⟨(add_documents_error_iff (fun _ => []) ⟨[], []⟩ (["a".data]) [] ("t".data)).1,
    (add_documents_error_iff (fun _ => []) ⟨[], []⟩ [] [] ("t".data)).2 rfl⟩

/-- C8 counterexample: with an empty text list and a non-empty metadata list
the lengths differ, yet add_documents returns the unchanged state instead of
signalling the invalid-argument failure the claim requires. -/
theorem add_documents_empty_no_error :
    addDocuments (fun _ => []) ⟨[], []⟩ [] [[(("k".data : Str), ("v".data : Str))]] ("t".data)
      = Except.ok ⟨[], []⟩ ∧
    ([] : List Str).length ≠ [[(("k".data : Str), ("v".data : Str))]].length := by
  exact ⟨rfl, by decide⟩

/-- C9 (amended): load of a missing snapshot, or one whose index file cannot
be read, returns the not-available signal with the state unchanged; when the
index file loads but the metadata file is corrupt, load still returns the
signal, but the vector set has already been replaced by the loaded index
while the metadata list keeps its old value; a fully readable snapshot
replaces both and returns true. -/
theorem load_store_cases (st : VSState) :
    (∀ mf, loadStore none mf st = (st, false)) ∧
    (∀ i, loadStore (some i) none st = (st, false)) ∧
    (∀ e mf, loadStore (some (Except.error e)) (some mf) st = (st, false)) ∧
    (∀ idx e, loadStore (some (Except.ok idx)) (some (Except.error e)) st
      = ({ st with index := idx }, false)) ∧
    (∀ idx md, loadStore (some (Except.ok idx)) (some (Except.ok md)) st
      = (⟨idx, md⟩, true)) :=
  ⟨fun _ => rfl, fun _ => rfl, fun _ _ => rfl, fun _ _ => rfl, fun _ _ => rfl⟩

/-- C9 counterexample: a snapshot whose index file reads back but whose
metadata file is corrupt makes load return false while the store state has
changed: the vector set was replaced, so the pre-call consistent pair is not
preserved. -/
theorem load_store_corrupt_meta_mutates :
    (loadStore (some (Except.ok [[2]])) (some (Except.error ())) ⟨[[1]], [[]]⟩).2 = false ∧
    (loadStore (some (Except.ok [[2]])) (some (Except.error ())) ⟨[[1]], [[]]⟩).1
      ≠ (⟨[[1]], [[]]⟩ : VSState) := by
  exact ⟨rfl, by decide⟩

/-- C10: in offline mode (dry-run set, or no client present) the embedding
matrix is rebuilt from the fixed-seed sample stream on every call and reads
only the number of texts and the dimension, so two calls with equally long
text lists return identical vectors, whatever the texts say. -/
theorem get_embeddings_offline_deterministic (stream : Nat → Int)
    (normalizeRows : List (List Int) → List Vec) (apiEmbed : List Str → List Vec)
    (dryRun clientPresent : Bool) (dim : Nat) (t1 t2 : List Str)
    (hmode : (dryRun || !clientPresent) = true) (hlen : t1.length = t2.length) :
    getEmbeddings stream normalizeRows apiEmbed dryRun clientPresent dim t1
      = getEmbeddings stream normalizeRows apiEmbed dryRun clientPresent dim t2 := by
  unfold getEmbeddings
  rw [hmode, hlen]
  simp

/-- Witness for C10 at two concrete, different text lists of equal length. -/
theorem get_embeddings_offline_deterministic_witness :
    getEmbeddings (fun n => (n : Int)) (fun m => m.map (fun r => r.map (fun x => (x : ℚ))))
      (fun _ => []) true false 2 (["aa".data, "b".data])
    = getEmbeddings (fun n => (n : Int)) (fun m => m.map (fun r => r.map (fun x => (x : ℚ))))
      (fun _ => []) true false 2 (["xyz".data, "w".data]) := by
  exact get_embeddings_offline_deterministic (fun n => (n : Int))
    (fun m => m.map (fun r => r.map (fun x => (x : ℚ)))) (fun _ => [])
    true false 2 (["aa".data, "b".data]) (["xyz".data, "w".data]) (by decide) (by decide)

theorem mContains_append_left (m l : Mappings) (k : Str)
    (h : mContains m k = true) : mContains (m ++ l) k = true := by
  simp only [mContains, List.any_append]
  simp only [mContains] at h
  simp [h]

theorem runPass_cons {α : Type} (f : Mappings → α → Option (Str × SectionMapping))
    (x : α) (xs : List α) (m : Mappings) :
    runPass f (x :: xs) m
      = runPass f xs (match f m x with | none => m | some kv => m ++ [kv]) := rfl

theorem runPass_contains {α : Type} (f : Mappings → α → Option (Str × SectionMapping))
    (xs : List α) (m : Mappings) (k : Str)
    (h : mContains m k = true) : mContains (runPass f xs m) k = true := by
  induction xs generalizing m with
  | nil => exact h
  | cons x xs ih =>
    rw [runPass_cons]
    cases hfx : f m x with
    | none => simp only [hfx]; exact ih _ h
    | some kv => simp only [hfx]; exact ih _ (mContains_append_left _ _ _ h)

theorem mFind_append_left (m l : Mappings) (k : Str) (v : SectionMapping)
    (h : mFind m k = some v) : mFind (m ++ l) k = some v := by
  unfold mFind at h ⊢
  rw [List.find?_append]
  cases hf : List.find? (fun p => p.1 == k) m with
  | none => rw [hf] at h; cases h
  | some p => rw [hf] at h; simpa [Option.or_some] using h

theorem runPass_find_left {α : Type} (f : Mappings → α → Option (Str × SectionMapping))
    (xs : List α) (m : Mappings) (k : Str) (v : SectionMapping)
    (h : mFind m k = some v) : mFind (runPass f xs m) k = some v := by
  induction xs generalizing m with
  | nil => exact h
  | cons x xs ih =>
    rw [runPass_cons]
    cases hfx : f m x with
    | none => simp only [hfx]; exact ih _ h
    | some kv => simp only [hfx]; exact ih _ (mFind_append_left _ _ _ _ h)

theorem runPass_keyed {α : Type} (f : Mappings → α → Option (Str × SectionMapping))
    (xs : List α) (m : Mappings)
    (hf : ∀ acc x kv, f acc x = some kv → kv.2.dsr_section = kv.1)
    (hm : ∀ p ∈ m, p.2.dsr_section = p.1) :
    ∀ p ∈ runPass f xs m, p.2.dsr_section = p.1 := by
  induction xs generalizing m with
  | nil => exact hm
  | cons x xs ih =>
    rw [runPass_cons]
    cases hfx : f m x with
    | none => simp only [hfx]; exact ih _ hm
    | some kv =>
      simp only [hfx]
      refine ih _ ?_
      intro p hp
      rcases List.mem_append.mp hp with h1 | h2
      · exact hm p h1
      · rw [List.mem_singleton.mp h2]
        exact hf m x kv hfx

theorem passMappingTableStep_keyed (entries : List MappingTableEntry)
    (tmpl : List TemplateSection) (acc : Mappings) (d : DSRSection)
    (kv : Str × SectionMapping)
    (h : passMappingTableStep entries tmpl acc d = some kv) :
    kv.2.dsr_section = kv.1 := by
  simp only [passMappingTableStep] at h
  repeat' split at h
  all_goals cases h <;> rfl

theorem passExactStep_keyed (tmpl : List TemplateSection) (acc : Mappings)
    (d : DSRSection) (kv : Str × SectionMapping)
    (h : passExactStep tmpl acc d = some kv) : kv.2.dsr_section = kv.1 := by
  simp only [passExactStep] at h
  repeat' split at h
  all_goals cases h <;> rfl

theorem passFuzzyStep_keyed (tmpl : List TemplateSection) (acc : Mappings)
    (d : DSRSection) (kv : Str × SectionMapping)
    (h : passFuzzyStep tmpl acc d = some kv) : kv.2.dsr_section = kv.1 := by
  simp only [passFuzzyStep] at h
  repeat' split at h
  all_goals cases h <;> rfl

theorem passVectorStep_keyed (vs : Str → List SearchResult) (acc : Mappings)
    (d : DSRSection) (kv : Str × SectionMapping)
    (h : passVectorStep vs acc d = some kv) : kv.2.dsr_section = kv.1 := by
  simp only [passVectorStep] at h
  repeat' split at h
  all_goals cases h <;> rfl

theorem passApiStep_keyed (unmatched : List DSRSection) (acc : Mappings)
    (mt : ApiMatch) (kv : Str × SectionMapping)
    (h : passApiStep unmatched acc mt = some kv) : kv.2.dsr_section = kv.1 := by
  simp only [passApiStep] at h
  repeat' split at h
  all_goals cases h <;> rfl

theorem residualStep_keyed (acc : Mappings) (d : DSRSection)
    (kv : Str × SectionMapping)
    (h : residualStep acc d = some kv) : kv.2.dsr_section = kv.1 := by
  simp only [residualStep] at h
  repeat' split at h
  all_goals cases h <;> rfl

theorem stage0_keyed (dsr : List DSRSection) (tmpl : List TemplateSection)
    (entries : Option (List MappingTableEntry)) :
    ∀ p ∈ stage0 dsr tmpl entries, p.2.dsr_section = p.1 := by
  unfold stage0 passMappingTable
  cases entries with
  | none => intro p hp; cases hp
  | some es =>
    dsimp only
    by_cases he : es.isEmpty
    · rw [if_pos he]; intro p hp; cases hp
    · rw [if_neg he]
      exact runPass_keyed (passMappingTableStep es tmpl) dsr []
        (fun acc x kv h => passMappingTableStep_keyed es tmpl acc x kv h)
        (fun p hp => absurd hp (List.not_mem_nil p))

theorem stage2_keyed (dsr : List DSRSection) (tmpl : List TemplateSection)
    (vs : Option (Str → List SearchResult)) (m1 : Mappings)
    (hm : ∀ p ∈ m1, p.2.dsr_section = p.1) :
    ∀ p ∈ stage2 dsr tmpl vs m1, p.2.dsr_section = p.1 := by
  unfold stage2
  cases vs with
  | none => exact runPass_keyed _ _ _ (fun acc x kv h => passFuzzyStep_keyed _ _ _ _ h) hm
  | some f => exact runPass_keyed _ _ _ (fun acc x kv h => passVectorStep_keyed _ _ _ _ h) hm

theorem passApi_eq (dsr : List DSRSection) (api : List ApiMatch) (m : Mappings) :
    passApi dsr api m
      = if (dsr.filter (fun d => !mContains m d.section_num)).isEmpty then m
        else runPass (passApiStep (dsr.filter (fun d => !mContains m d.section_num))) api m := rfl

theorem passApi_keyed (dsr : List DSRSection) (api : List ApiMatch) (m : Mappings)
    (hm : ∀ p ∈ m, p.2.dsr_section = p.1) :
    ∀ p ∈ passApi dsr api m, p.2.dsr_section = p.1 := by
  rw [passApi_eq]
  split
  · exact hm
  · exact runPass_keyed _ _ _ (fun acc x kv h => passApiStep_keyed _ _ _ _ h) hm

theorem mapStages_keyed (dsr : List DSRSection) (tmpl : List TemplateSection)
    (api : List ApiMatch) (entries : Option (List MappingTableEntry))
    (vs : Option (Str → List SearchResult)) :
    ∀ p ∈ mapStages dsr tmpl api entries vs, p.2.dsr_section = p.1 := by
  unfold mapStages
  exact passApi_keyed _ _ _ (stage2_keyed _ _ _ _
    (runPass_keyed _ _ _ (fun acc x kv h => passExactStep_keyed _ _ _ _ h)
      (stage0_keyed dsr tmpl entries)))

theorem residualPass_keyed (dsr : List DSRSection) (m : Mappings)
    (hm : ∀ p ∈ m, p.2.dsr_section = p.1) :
    ∀ p ∈ residualPass dsr m, p.2.dsr_section = p.1 :=
  runPass_keyed _ _ _ (fun acc x kv h => residualStep_keyed _ _ _ h) hm

theorem residual_covers (dsr : List DSRSection) (m : Mappings) :
    ∀ d ∈ dsr, mContains (residualPass dsr m) d.section_num = true := by
  induction dsr generalizing m with
  | nil => intro d hd; cases hd
  | cons d0 rest ih =>
    intro d hd
    unfold residualPass
    rw [runPass_cons]
    rcases List.mem_cons.mp hd with rfl | hd2
    · have hc : mContains (match residualStep m d with
          | none => m
          | some kv => m ++ [kv]) d.section_num = true := by
        cases hstep : residualStep m d with
        | none =>
          simp only [residualStep] at hstep
          split at hstep
          · next hcc => exact hcc
          · cases hstep
        | some kv =>
          simp only [residualStep] at hstep
          split at hstep
          · cases hstep
          · cases hstep
            simp [mContains, List.any_append]
      exact runPass_contains _ rest _ _ hc
    · exact ih _ d hd2

theorem mFind_eq_none_of_not_contains (m : Mappings) (k : Str)
    (h : mContains m k = false) : mFind m k = none := by
  unfold mFind
  cases hf : List.find? (fun p => p.1 == k) m with
  | none => rfl
  | some p =>
    exfalso
    have hp := List.find?_some hf
    have hmem := List.mem_of_find?_eq_some hf
    have hc : mContains m k = true := by
      simp only [mContains, List.any_eq_true]
      exact ⟨p, hmem, hp⟩
    rw [hc] at h; cases h

theorem mFind_isSome_of_contains (m : Mappings) (k : Str)
    (h : mContains m k = true) : (mFind m k).isSome = true := by
  unfold mFind
  cases hf : List.find? (fun p => p.1 == k) m with
  | none =>
    exfalso
    simp only [mContains, List.any_eq_true] at h
    obtain ⟨p, hp, hpk⟩ := h
    have hs : (List.find? (fun q => q.1 == k) m).isSome = true :=
      List.find?_isSome.mpr ⟨p, hp, hpk⟩
    rw [hf] at hs; cases hs
  | some p => rfl

theorem mFind_keyed (m : Mappings) (k : Str) (v : SectionMapping)
    (hk : ∀ p ∈ m, p.2.dsr_section = p.1)
    (h : mFind m k = some v) : v.dsr_section = k := by
  unfold mFind at h
  cases hf : List.find? (fun p => p.1 == k) m with
  | none => rw [hf] at h; cases h
  | some p =>
    rw [hf] at h
    have hv : p.2 = v := by simpa using h
    have hp : p.1 = k := by simpa using List.find?_some hf
    rw [← hv, hk p (List.mem_of_find?_eq_some hf), hp]

theorem residual_new (dsr : List DSRSection) (m : Mappings) (k : Str)
    (v : SectionMapping) (h0 : mFind m k = none)
    (h : mFind (residualPass dsr m) k = some v) :
    v.template_section = none ∧ v.match_method = kNoMatchM := by
  induction dsr generalizing m with
  | nil =>
    unfold residualPass runPass at h
    simp only [List.foldl_nil] at h
    rw [h0] at h; cases h
  | cons d0 rest ih =>
    unfold residualPass at h
    rw [runPass_cons] at h
    cases hstep : residualStep m d0 with
    | none =>
      simp only [hstep] at h
      exact ih m h0 h
    | some kv =>
      simp only [hstep] at h
      by_cases hk : kv.1 = k
      · have hn : mFind m k = none := h0
        have hfind : mFind (m ++ [kv]) k = some kv.2 := by
          unfold mFind at hn ⊢
          rw [List.find?_append]
          cases hf : List.find? (fun p => p.1 == k) m with
          | none => simp [List.find?_cons, hk]
          | some p => rw [hf] at hn; cases hn
        have hstable := runPass_find_left residualStep rest _ _ _ hfind
        have hv : v = kv.2 := by
          have h2 := hstable.symm.trans h
          exact (Option.some.inj h2).symm
        subst hv
        simp only [residualStep] at hstep
        split at hstep
        · cases hstep
        · cases hstep
          exact ⟨rfl, rfl⟩
      · have h0b : mFind (m ++ [kv]) k = none := by
          unfold mFind at h0 ⊢
          rw [List.find?_append]
          cases hf : List.find? (fun p => p.1 == k) m with
          | none => simp [List.find?_cons, hk]
          | some p => rw [hf] at h0; cases h0
        exact ih _ h0b h

theorem finalize_eq (dsr : List DSRSection) (m : Mappings)
    (h : ∀ d ∈ dsr, (mFind m d.section_num).isSome = true) :
    finalize dsr m = dsr.map (fun d => (mFind m d.section_num).getD noneSM) := by
  induction dsr with
  | nil => rfl
  | cons d rest ih =>
    obtain ⟨v, hv⟩ := Option.isSome_iff_exists.mp (h d (List.mem_cons_self d rest))
    simp only [finalize, List.map_cons, List.filterMap_cons] at *
    rw [hv]
    simp only [Option.getD_some]
    rw [ih (fun x hx => h x (List.mem_cons_of_mem d hx))]

/-- C1: map_sections returns exactly one SectionMapping per input DSR
section, in input order, with the section number of the record equal to that
of the section; any section that the four passes left unmapped receives the
synthetic no-match record with an absent template section. -/
theorem map_sections_one_per_section (dsr : List DSRSection)
    (tmpl : List TemplateSection) (api : List ApiMatch)
    (entries : Option (List MappingTableEntry))
    (vs : Option (Str → List SearchResult)) :
    (mapSections dsr tmpl api entries vs).length = dsr.length ∧
    (∀ i : Nat, ((mapSections dsr tmpl api entries vs)[i]?).map (fun r => r.dsr_section)
      = (dsr[i]?).map (fun d => d.section_num)) ∧
    (∀ (i : Nat) (d : DSRSection) (r : SectionMapping), dsr[i]? = some d →
      (mapSections dsr tmpl api entries vs)[i]? = some r →
      mFind (mapStages dsr tmpl api entries vs) d.section_num = none →
      r.template_section = none ∧ r.match_method = kNoMatchM) := by
  have hkeyR : ∀ p ∈ residualPass dsr (mapStages dsr tmpl api entries vs),
      p.2.dsr_section = p.1 :=
    residualPass_keyed _ _ (mapStages_keyed dsr tmpl api entries vs)
  have hcov : ∀ d ∈ dsr,
      (mFind (residualPass dsr (mapStages dsr tmpl api entries vs)) d.section_num).isSome = true :=
    fun d hd => mFind_isSome_of_contains _ _ (residual_covers dsr _ d hd)
  have hfin : mapSections dsr tmpl api entries vs
      = dsr.map (fun d =>
          (mFind (residualPass dsr (mapStages dsr tmpl api entries vs)) d.section_num).getD noneSM) :=
    finalize_eq dsr _ hcov
  refine ⟨?_, ?_, ?_⟩
  · rw [hfin]; simp
  · intro i
    rw [hfin, List.getElem?_map]
    cases hi : dsr[i]? with
    | none => rfl
    | some d =>
      obtain ⟨v, hv⟩ := Option.isSome_iff_exists.mp (hcov d (List.getElem?_mem hi))
      simp only [hv, Option.map_some', Option.getD_some]
      rw [mFind_keyed _ _ _ hkeyR hv]
  · intro i d r hi hr h3
    obtain ⟨v, hv⟩ := Option.isSome_iff_exists.mp (hcov d (List.getElem?_mem hi))
    rw [hfin, List.getElem?_map, hi] at hr
    simp only [hv, Option.map_some', Option.getD_some] at hr
    cases hr
    exact residual_new dsr _ _ _ h3 hv

/-- Witness for C1 at a concrete single-section input that no pass maps. -/
theorem map_sections_one_per_section_witness :
    (mapSections [⟨"1".data, "Intro".data, [], []⟩] [] [] none none).length
      = ([⟨"1".data, "Intro".data, [], []⟩] : List DSRSection).length ∧
    (((mapSections [⟨"1".data, "Intro".data, [], []⟩] [] [] none none).getD 0 noneSM).template_section = none ∧
      ((mapSections [⟨"1".data, "Intro".data, [], []⟩] [] [] none none).getD 0 noneSM).match_method = kNoMatchM) := by
  refine ⟨(map_sections_one_per_section [⟨"1".data, "Intro".data, [], []⟩] [] [] none none).1, ?_⟩
  exact (map_sections_one_per_section [⟨"1".data, "Intro".data, [], []⟩] [] [] none none).2.2
    0 ⟨"1".data, "Intro".data, [], []⟩
    ((mapSections [⟨"1".data, "Intro".data, [], []⟩] [] [] none none).getD 0 noneSM)
    (by decide) (by decide) (by decide)

theorem foldl_last_match {α : Type} (p : α → Bool) (ts : List α) (init : Option α) :
    ts.foldl (fun r t => if p t then some t else r) init
      = (ts.reverse.find? p).or init := by
  induction ts generalizing init with
  | nil => simp
  | cons t ts ih =>
    simp only [List.foldl_cons, List.reverse_cons, List.find?_append, ih]
    cases hf : ts.reverse.find? p with
    | some q => simp [Option.or]
    | none => cases hp : p t <;> simp [List.find?_cons, hp, Option.or]

theorem lastTmplByTitle_eq_reverse_find (ts : List TemplateSection) (key : Str) :
    lastTmplByTitle ts key
      = ts.reverse.find? (fun t => normalizeTitle t.title == key) := by
  unfold lastTmplByTitle
  rw [foldl_last_match]
  cases ts.reverse.find? (fun t => normalizeTitle t.title == key) <;> simp [Option.or]

theorem mFind_append_new (m : Mappings) (k : Str) (v : SectionMapping)
    (h : mFind m k = none) : mFind (m ++ [(k, v)]) k = some v := by
  unfold mFind at h ⊢
  rw [List.find?_append]
  cases hf : List.find? (fun p => p.1 == k) m with
  | none => simp [List.find?_cons]
  | some p => rw [hf] at h; cases h

/-- C7 (amended): in pass 1, an unmapped DSR section whose normalized title
occurs among the normalized template titles is mapped to the LAST template
section with that normalized title in template-list order — the title
dictionary is built with later templates overwriting earlier ones, so when
two or more templates share a normalized title the last of them, not the
first, receives the match. -/
theorem pass_exact_duplicate_last_wins (tmpl : List TemplateSection)
    (m : Mappings) (d : DSRSection) (t : TemplateSection)
    (hun : mContains m d.section_num = false)
    (hlast : tmpl.reverse.find?
      (fun t => normalizeTitle t.title == normalizeTitle d.title) = some t) :
    mFind (passExact [d] tmpl m) d.section_num
      = some ({ dsr_section := d.section_num, dsr_title := d.title, dsr_file := d.file,
                template_section := some t.section_id, template_title := some t.title,
                match_method := kExactTitle, confidence := none,
                notes := "Exact title match".data } : SectionMapping) := by
  have hstep : passExactStep tmpl m d
      = some (d.section_num,
        { dsr_section := d.section_num, dsr_title := d.title, dsr_file := d.file,
          template_section := some t.section_id, template_title := some t.title,
          match_method := kExactTitle, confidence := none,
          notes := "Exact title match".data }) := by
    unfold passExactStep
    rw [if_neg (by simp [hun])]
    rw [lastTmplByTitle_eq_reverse_find, hlast]
  show mFind (runPass (passExactStep tmpl) [d] m) d.section_num = _
  rw [runPass_cons]
  simp only [hstep]
  show mFind (m ++ [_]) d.section_num = _
  exact mFind_append_new m d.section_num _ (mFind_eq_none_of_not_contains m _ hun)

/-- Witness for C7 (amended) at two templates sharing a normalized title. -/
theorem pass_exact_duplicate_last_wins_witness :
    mFind (passExact [⟨"1".data, "Intro".data, [], []⟩]
        [⟨"A".data, "Intro".data⟩, ⟨"B".data, "Intro".data⟩] [])
      ("1".data)
      = some ({ dsr_section := "1".data, dsr_title := "Intro".data, dsr_file := [],
                template_section := some ("B".data), template_title := some ("Intro".data),
                match_method := kExactTitle, confidence := none,
                notes := "Exact title match".data } : SectionMapping) := by
  exact pass_exact_duplicate_last_wins
    [⟨"A".data, "Intro".data⟩, ⟨"B".data, "Intro".data⟩] []
    ⟨"1".data, "Intro".data, [], []⟩ ⟨"B".data, "Intro".data⟩
    (by decide) (by decide)

/-- C7 counterexample: with two templates sharing the normalized title, pass
1 maps the section to the second template, not to the first one the claim
requires. -/
theorem pass_exact_first_template_loses :
    (mFind (passExact [⟨"1".data, "Intro".data, [], []⟩]
        [⟨"A".data, "Intro".data⟩, ⟨"B".data, "Intro".data⟩] [])
      ("1".data)).map (fun v => v.template_section)
      = some (some ("B".data)) ∧
    ("B".data : Str) ≠ ("A".data : Str) := by
  exact ⟨by decide, by decide⟩

theorem toLower_of_space (c : Char) (h : isSpace c = true) : c.toLower = c := by
  simp only [isSpace, Bool.or_eq_true, decide_eq_true_eq] at h
  rcases h with ⟨⟨⟨⟨h | h⟩ | h⟩ | h⟩ | h⟩ | h <;> rw [h] <;> decide

theorem toLower_of_digit (c : Char) (h : c.isDigit = true) : c.toLower = c := by
  unfold Char.toLower
  unfold Char.isDigit at h
  dsimp only
  rw [if_neg]
  simp only [Bool.and_eq_true, decide_eq_true_eq] at h
  obtain ⟨h1, h2⟩ := h
  have h1n : 48 ≤ c.val.toNat := h1
  have h2n : c.val.toNat ≤ 57 := h2
  simp only [Char.toNat, not_and, not_le]
  intro h65
  omega

theorem not_space_of_lcEq (c b : Char) (hb : isSpace b.toLower = false)
    (h : lcEq c b) : isSpace c = false := by
  cases hsp : isSpace c with
  | false => rfl
  | true =>
    exfalso
    have ht := toLower_of_space c hsp
    unfold lcEq at h
    rw [ht] at h
    rw [h] at hsp
    rw [hb] at hsp
    cases hsp

theorem not_digit_of_lcEq (c b : Char) (hb : (b.toLower).isDigit = false)
    (h : lcEq c b) : c.isDigit = false := by
  cases hd : c.isDigit with
  | false => rfl
  | true =>
    exfalso
    have ht := toLower_of_digit c hd
    unfold lcEq at h
    rw [ht] at h
    rw [h] at hd
    rw [hb] at hd
    cases hd

theorem not_space_of_digit (c : Char) (h : c.isDigit = true) : isSpace c = false := by
  cases hsp : isSpace c with
  | false => rfl
  | true =>
    exfalso
    simp only [isSpace, Bool.or_eq_true, decide_eq_true_eq] at hsp
    rcases hsp with ⟨⟨⟨⟨hc | hc⟩ | hc⟩ | hc⟩ | hc⟩ | hc <;> rw [hc] at h <;> cases h

theorem not_digit_of_space (c : Char) (h : isSpace c = true) : c.isDigit = false := by
  cases hd : c.isDigit with
  | false => rfl
  | true =>
    exfalso
    rw [not_space_of_digit c hd] at h
    cases h

theorem dropWhile_append_spaces (w s : Str) (hw : ∀ c ∈ w, isSpace c = true) :
    (w ++ s).dropWhile isSpace = s.dropWhile isSpace := by
  induction w with
  | nil => rfl
  | cons c cs ih =>
    rw [List.cons_append, List.dropWhile_cons]
    rw [hw c (List.mem_cons_self c cs)]
    simp only [if_true]
    exact ih (fun x hx => hw x (List.mem_cons_of_mem c hx))

theorem dropWhile_cons_neg (c : Char) (s : Str) (h : isSpace c = false) :
    (c :: s).dropWhile isSpace = c :: s := by
  rw [List.dropWhile_cons, h]
  simp

theorem takeWhile_digits_append (n w : Str) (hn : ∀ c ∈ n, c.isDigit = true)
    (hw : ∀ c cs, w = c :: cs → c.isDigit = false) :
    (n ++ w).takeWhile Char.isDigit = n := by
  induction n with
  | nil =>
    cases w with
    | nil => rfl
    | cons c cs => simp [List.takeWhile_cons, hw c cs rfl]
  | cons c cs ih =>
    rw [List.cons_append, List.takeWhile_cons, hn c (List.mem_cons_self c cs)]
    simp only [if_true]
    rw [ih (fun x hx => hn x (List.mem_cons_of_mem c hx))]

theorem matchCI_prefix_continue {base1 s : Str} (base2 rest : Str)
    (h : List.Forall₂ lcEq s base1) :
    matchCI (base1 ++ base2) (s ++ rest) = matchCI base2 rest := by
  induction h with
  | nil => rfl
  | @cons a b l1 l2 hc _ ih =>
    have hc2 : a.toLower = b.toLower := hc
    rw [List.cons_append, List.cons_append]
    show (if a.toLower = b.toLower then matchCI (l2 ++ base2) (l1 ++ rest) else none) = _
    rw [if_pos hc2]
    exact ih

theorem matchCI_of_lowers (base s rest : Str) (h : List.Forall₂ lcEq s base) :
    matchCI base (s ++ rest) = some rest := by
  have h2 := matchCI_prefix_continue ([] : Str) rest h
  rw [List.append_nil] at h2
  exact h2

theorem matchCI_stop (p : Char) (ps : Str) (c : Char) (cs : Str)
    (h : ¬ c.toLower = p.toLower) : matchCI (p :: ps) (c :: cs) = none := by
  simp [matchCI, h]

/-- C3: a table citation — any whitespace, the letters IB in any case, any
whitespace, the word Table in any case, any whitespace, a digit string, then
trailing whitespace — classifies as an ib_table reference with the table
number as locator: the IB-section pattern cannot match a table citation, so
table detection takes effect before generic section detection. -/
theorem classify_ib_table (w1 w2 w3 w4 ib tb n : Str)
    (hw1 : ∀ c ∈ w1, isSpace c = true) (hw2 : ∀ c ∈ w2, isSpace c = true)
    (hw3 : ∀ c ∈ w3, isSpace c = true) (hw4 : ∀ c ∈ w4, isSpace c = true)
    (hib : List.Forall₂ lcEq ib ("ib".data))
    (htb : List.Forall₂ lcEq tb ("table".data))
    (hne : n ≠ []) (hnd : ∀ c ∈ n, c.isDigit = true) :
    classifySource (w1 ++ ib ++ w2 ++ tb ++ w3 ++ n ++ w4) = (kIbTable, some n) := by
  rw [show ("ib".data) = ['i', 'b'] from rfl] at hib
  rw [show ("table".data) = ['t', 'a', 'b', 'l', 'e'] from rfl] at htb
  rcases hib with _ | ⟨hc1, _ | ⟨hc2, _ | _⟩⟩
  rcases htb with _ | ⟨ht1, _ | ⟨ht2, _ | ⟨ht3, _ | ⟨ht4, _ | ⟨ht5, _ | _⟩⟩⟩⟩⟩
  rcases List.exists_cons_of_ne_nil hne with ⟨nh, nt, rfl⟩
  rename_i c1 c2 t1 t2 t3 t4 t5
  have hnh : nh.isDigit = true := hnd nh (List.mem_cons_self nh nt)
  simp only [List.append_assoc, List.cons_append, List.nil_append]
  have hdrop1 : (w1 ++ (c1 :: c2 :: (w2 ++ (t1 :: t2 :: t3 :: t4 :: t5 ::
      (w3 ++ (nh :: (nt ++ w4))))))).dropWhile isSpace
      = c1 :: c2 :: (w2 ++ (t1 :: t2 :: t3 :: t4 :: t5 :: (w3 ++ (nh :: (nt ++ w4))))) := by
    rw [dropWhile_append_spaces _ _ hw1]
    exact dropWhile_cons_neg _ _ (not_space_of_lcEq c1 'i' (by decide) hc1)
  have hci_ib : matchCI ("ib".data)
      (c1 :: c2 :: (w2 ++ (t1 :: t2 :: t3 :: t4 :: t5 :: (w3 ++ (nh :: (nt ++ w4))))))
      = some (w2 ++ (t1 :: t2 :: t3 :: t4 :: t5 :: (w3 ++ (nh :: (nt ++ w4))))) := by
    exact matchCI_of_lowers ("ib".data) [c1, c2] _
      (List.Forall₂.cons hc1 (List.Forall₂.cons hc2 List.Forall₂.nil))
  have hdrop2 : (w2 ++ (t1 :: t2 :: t3 :: t4 :: t5 ::
      (w3 ++ (nh :: (nt ++ w4))))).dropWhile isSpace
      = t1 :: t2 :: t3 :: t4 :: t5 :: (w3 ++ (nh :: (nt ++ w4))) := by
    rw [dropWhile_append_spaces _ _ hw2]
    exact dropWhile_cons_neg _ _ (not_space_of_lcEq t1 't' (by decide) ht1)
  have hsec : matchIBSection (w1 ++ (c1 :: c2 :: (w2 ++ (t1 :: t2 :: t3 :: t4 :: t5 ::
      (w3 ++ (nh :: (nt ++ w4))))))) = none := by
    unfold matchIBSection
    rw [hdrop1, hci_ib]
    simp only
    rw [hdrop2]
    unfold sectionNumPart afterSectionKw
    rw [matchCI_stop 's' _ t1 _ (fun hcon => absurd (ht1.symm.trans hcon) (by decide))]
    rw [matchCI_stop 's' _ t1 _ (fun hcon => absurd (ht1.symm.trans hcon) (by decide))]
    simp only
    rw [not_digit_of_lcEq t1 't' (by decide) ht1]
    simp
  have htab : matchIBTable (w1 ++ (c1 :: c2 :: (w2 ++ (t1 :: t2 :: t3 :: t4 :: t5 ::
      (w3 ++ (nh :: (nt ++ w4))))))) = some (nh :: nt) := by
    unfold matchIBTable
    rw [hdrop1, hci_ib]
    simp only
    rw [hdrop2]
    have hci_tb : matchCI ("table".data)
        (t1 :: t2 :: t3 :: t4 :: t5 :: (w3 ++ (nh :: (nt ++ w4))))
        = some (w3 ++ (nh :: (nt ++ w4))) := by
      exact matchCI_of_lowers ("table".data) [t1, t2, t3, t4, t5] _
        (List.Forall₂.cons ht1 (List.Forall₂.cons ht2 (List.Forall₂.cons ht3
          (List.Forall₂.cons ht4 (List.Forall₂.cons ht5 List.Forall₂.nil)))))
    rw [hci_tb]
    simp only
    have hdrop3 : (w3 ++ (nh :: (nt ++ w4))).dropWhile isSpace = nh :: nt ++ w4 := by
      rw [dropWhile_append_spaces _ _ hw3]
      exact dropWhile_cons_neg _ _ (not_space_of_digit nh hnh)
    rw [hdrop3]
    have htake : ((nh :: nt) ++ w4).takeWhile Char.isDigit = nh :: nt := by
      exact takeWhile_digits_append (nh :: nt) w4 hnd
        (fun c cs hc => by
          have : c ∈ w4 := by rw [hc]; exact List.mem_cons_self c cs
          exact not_digit_of_space c (hw4 c this))
    rw [htake]
    simp
  simp only [classifySource, hsec, htab]

/-- Witness for C3 at the two concrete citations of the claim. -/
theorem classify_ib_table_witness :
    classifySource ("IB Table 30".data) = (kIbTable, some ("30".data)) ∧
    classifySource ("ib table 5".data) = (kIbTable, some ("5".data)) := by
  constructor
  · have h := classify_ib_table [] [' '] [' '] [] ("IB".data) ("Table".data) ("30".data)
      (by decide) (by decide) (by decide) (by decide)
      (List.Forall₂.cons (by decide) (List.Forall₂.cons (by decide) List.Forall₂.nil))
      (List.Forall₂.cons (by decide) (List.Forall₂.cons (by decide) (List.Forall₂.cons
        (by decide) (List.Forall₂.cons (by decide) (List.Forall₂.cons (by decide)
          List.Forall₂.nil)))))
      (by decide) (by decide)
    simpa using h
  · have h := classify_ib_table [] [' '] [' '] [] ("ib".data) ("table".data) ("5".data)
      (by decide) (by decide) (by decide) (by decide)
      (List.Forall₂.cons (by decide) (List.Forall₂.cons (by decide) List.Forall₂.nil))
      (List.Forall₂.cons (by decide) (List.Forall₂.cons (by decide) (List.Forall₂.cons
        (by decide) (List.Forall₂.cons (by decide) (List.Forall₂.cons (by decide)
          List.Forall₂.nil)))))
      (by decide) (by decide)
    simpa using h

theorem subGo_id (m : Str → Option Nat) : ∀ (fuel : Nat) (b : Bool) (s : Str),
    (∀ l, l <:+ s → m l = none) → subGo m fuel b s = s
  | 0, _, _ => fun _ => rfl
  | _ + 1, _, [] => fun _ => rfl
  | fuel + 1, b, c :: cs => fun h => by
    have hm := h (c :: cs) (List.suffix_refl _)
    have ih := subGo_id m fuel (c == '\n') cs
      (fun l hl => h l (hl.trans (List.suffix_cons c cs)))
    cases b with
    | true => simp [subGo, hm, ih]
    | false => simp [subGo, ih]

theorem applySub_id (m : Str → Option Nat) (s : Str)
    (h : ∀ l, l <:+ s → m l = none) : applySub m s = s :=
  subGo_id m s.length true s h

theorem subFooterGo_id (m : Str → Option Nat) : ∀ (fuel : Nat) (s : Str),
    (∀ l, l <:+ s → m l = none) → subFooterGo m fuel s = s
  | 0, _ => fun _ => rfl
  | _ + 1, [] => fun _ => rfl
  | fuel + 1, c :: cs => fun h => by
    have ih := subFooterGo_id m fuel cs
      (fun l hl => h l (hl.trans (List.suffix_cons c cs)))
    by_cases hc : c = '\n'
    · have hm := h cs (List.suffix_cons c cs)
      simp [subFooterGo, hc, hm, ih]
    · simp [subFooterGo, hc, ih]

theorem applyFooterSub_id (s : Str)
    (h : ∀ l, l <:+ s → matchFooterBody l = none) : applyFooterSub s = s := by
  unfold applyFooterSub
  rw [h s (List.suffix_refl s)]
  exact subFooterGo_id matchFooterBody s.length s h

theorem collapseNl_id : ∀ (fuel : Nat) (s : Str),
    (∀ c ∈ s, ¬ c = '\n') → collapseNl fuel s = s
  | 0, _ => fun _ => rfl
  | _ + 1, [] => fun _ => rfl
  | fuel + 1, c :: cs => fun h => by
    have ih := collapseNl_id fuel cs (fun x hx => h x (List.mem_cons_of_mem c hx))
    have hc := h c (List.mem_cons_self c cs)
    simp [collapseNl, hc, ih]

theorem isSubstr_false_pre (p s : Str) (h : isSubstr p s = false) :
    ∀ l, l <:+ s → p.isPrefixOf l = false := by
  induction s with
  | nil =>
    intro l hl
    rw [List.suffix_nil.mp hl]
    cases p with
    | nil => rw [show isSubstr [] [] = true from rfl] at h; cases h
    | cons a as => rfl
  | cons c cs ih =>
    intro l hl
    rw [show isSubstr p (c :: cs)
      = (p.isPrefixOf (c :: cs) || isSubstr p cs) from rfl] at h
    obtain ⟨h1, h2⟩ := Bool.or_eq_false_iff.mp h
    rcases List.suffix_cons_iff.mp hl with rfl | hl2
    · exact h1
    · exact ih h2 l hl2

theorem isSubstr_iff_inf (p s : Str) : isSubstr p s = true ↔ p <:+: s := by
  induction s with
  | nil =>
    cases p with
    | nil => simp [isSubstr]
    | cons a as =>
      rw [show isSubstr (a :: as) [] = false from rfl]
      simp
  | cons c cs ih =>
    rw [show isSubstr p (c :: cs)
      = (p.isPrefixOf (c :: cs) || isSubstr p cs) from rfl]
    rw [Bool.or_eq_true, List.isPrefixOf_iff_prefix, ih, List.infix_cons_iff]

theorem isSubstr_false_of_inf (p u s : Str) (h : isSubstr p s = false)
    (hu : u <:+: s) : isSubstr p u = false := by
  cases hsu : isSubstr p u with
  | false => rfl
  | true =>
    exfalso
    have := (isSubstr_iff_inf p s).mpr ((isSubstr_iff_inf p u).mp hsu |>.trans hu)
    rw [h] at this; cases this

theorem isSubstr_of_prefix_suffix (p u s : Str) (hp : p.isPrefixOf u = true)
    (hs : u <:+ s) : isSubstr p s = true := by
  refine (isSubstr_iff_inf p s).mpr ?_
  exact List.infix_iff_prefix_suffix.mpr ⟨u, List.isPrefixOf_iff_prefix.mp hp, hs⟩

theorem matchCI_some_lower_pre : ∀ (pat l r : Str), matchCI pat l = some r →
    (pat.map Char.toLower).isPrefixOf (l.map Char.toLower) = true
  | [], _, _ => fun _ => by simp [List.isPrefixOf]
  | p :: ps, [], r => fun h => by cases h
  | p :: ps, c :: cs, r => fun h => by
    by_cases hc : c.toLower = p.toLower
    · rw [show matchCI (p :: ps) (c :: cs)
        = (if c.toLower = p.toLower then matchCI ps cs else none) from rfl,
        if_pos hc] at h
      have ih := matchCI_some_lower_pre ps cs r h
      simp only [List.map_cons, List.isPrefixOf, hc]
      simp [ih]
    · rw [show matchCI (p :: ps) (c :: cs)
        = (if c.toLower = p.toLower then matchCI ps cs else none) from rfl,
        if_neg hc] at h
      cases h

theorem takeWhile_nil_of_all_false (p : Char → Bool) (s : Str)
    (h : ∀ c ∈ s, p c = false) : s.takeWhile p = [] := by
  cases s with
  | nil => rfl
  | cons c cs => simp [List.takeWhile_cons, h c (List.mem_cons_self c cs)]

theorem drop_takeWhile_length (p : Char → Bool) (l : Str) :
    l.drop (l.takeWhile p).length = l.dropWhile p := by
  nth_rewrite 2 [← List.takeWhile_append_dropWhile p l]
  rw [List.drop_left]

theorem mem_of_suffix (c : Char) (l s : Str) (hl : l <:+ s) (hc : c ∈ l) : c ∈ s :=
  List.Sublist.mem hc hl.sublist

theorem mem_of_inf (c : Char) (l s : Str) (hl : l <:+: s) (hc : c ∈ l) : c ∈ s :=
  List.Sublist.mem hc hl.sublist

theorem stripWs_inf (s : Str) : stripWs s <:+: s := by
  rw [show stripWs s = List.rdropWhile isSpace (List.dropWhile isSpace s) from rfl]
  exact List.infix_iff_prefix_suffix.mpr
    ⟨List.dropWhile isSpace s, List.rdropWhile_prefix isSpace _,
      List.dropWhile_suffix isSpace⟩

theorem stripWs_idem (s : Str) : stripWs (stripWs s) = stripWs s := by
  rw [show stripWs s = List.rdropWhile isSpace (List.dropWhile isSpace s) from rfl]
  rw [show stripWs (List.rdropWhile isSpace (List.dropWhile isSpace s))
    = List.rdropWhile isSpace (List.dropWhile isSpace
        (List.rdropWhile isSpace (List.dropWhile isSpace s))) from rfl]
  have hD : List.dropWhile isSpace (List.dropWhile isSpace s)
      = List.dropWhile isSpace s := List.dropWhile_idempotent isSpace s
  have hpre := List.rdropWhile_prefix isSpace (List.dropWhile isSpace s)
  have hdropR : List.dropWhile isSpace
      (List.rdropWhile isSpace (List.dropWhile isSpace s))
      = List.rdropWhile isSpace (List.dropWhile isSpace s) := by
    rw [List.dropWhile_eq_self_iff]
    intro hl
    have hlen : 0 < (List.dropWhile isSpace s).length :=
      Nat.lt_of_lt_of_le hl (List.IsPrefix.length_le hpre)
    have hget := List.IsPrefix.getElem hpre hl
    rw [List.get_eq_getElem, hget]
    have := List.dropWhile_eq_self_iff.mp hD hlen
    rw [List.get_eq_getElem] at this
    exact this
  rw [hdropR, List.rdropWhile_idempotent]

theorem matchHeaderIB_none (l : Str) (h : kwInvBrochure.isPrefixOf l = false) :
    matchHeaderIB l = none := by
  simp [matchHeaderIB, h]

theorem matchConfidential_none (l : Str)
    (h : kwConfidential.isPrefixOf (l.dropWhile isSpace) = false) :
    matchConfidential l = none := by
  simp [matchConfidential, drop_takeWhile_length, h]

theorem matchVersion_none (l : Str) (h : ("Version".data).isPrefixOf l = false) :
    matchVersion l = none := by
  simp [matchVersion, h]

theorem matchPageNum_none (l : Str) (h : ∀ c ∈ l, c.isDigit = false) :
    matchPageNum l = none := by
  have hd : (l.dropWhile isSpace).takeWhile Char.isDigit = [] :=
    takeWhile_nil_of_all_false _ _
      (fun c hc => h c (mem_of_suffix c _ l (List.dropWhile_suffix isSpace) hc))
  simp [matchPageNum, drop_takeWhile_length, hd]

theorem matchFooterBody_none (l : Str) (h : ∀ c ∈ l, c.isDigit = false) :
    matchFooterBody l = none := by
  have hd : (l.dropWhile isSpace).takeWhile Char.isDigit = [] :=
    takeWhile_nil_of_all_false _ _
      (fun c hc => h c (mem_of_suffix c _ l (List.dropWhile_suffix isSpace) hc))
  simp [matchFooterBody, drop_takeWhile_length, hd]

theorem matchReportHeader_none (l : Str)
    (h : matchCI ("periodic".data) l = none) : matchReportHeader l = none := by
  simp [matchReportHeader, h]

/-- The cleaner acts as a plain strip on texts that are free of digits and of
every boilerplate marker. -/
theorem cleanSourceText_eq_strip (u : Str)
    (h1 : ∀ c ∈ u, ¬ c = '\n') (h2 : ∀ c ∈ u, c.isDigit = false)
    (h3 : isSubstr kwInvBrochure u = false)
    (h4 : isSubstr kwConfidential u = false)
    (h5 : isSubstr ("Version".data) u = false)
    (h6 : isSubstr ("periodic".data) (u.map Char.toLower) = false) :
    cleanSourceText u = stripWs u := by
  have hci : ∀ l, l <:+ u → matchCI ("periodic".data) l = none := by
    intro l hl
    cases hm : matchCI ("periodic".data) l with
    | none => rfl
    | some r =>
      exfalso
      have hpre := matchCI_some_lower_pre _ _ _ hm
      have hmap : ("periodic".data).isPrefixOf (l.map Char.toLower) = true := by
        have he : "periodic".data.map Char.toLower = "periodic".data := by decide
        rw [← he]; exact hpre
      have hsub := isSubstr_of_prefix_suffix _ _ _ hmap (List.IsSuffix.map Char.toLower hl)
      rw [h6] at hsub; cases hsub
  have e1 : applySub matchHeaderIB u = u :=
    applySub_id _ _ (fun l hl => matchHeaderIB_none l (isSubstr_false_pre _ _ h3 l hl))
  have e2 : applySub matchConfidential u = u :=
    applySub_id _ _ (fun l hl => matchConfidential_none l
      (isSubstr_false_pre _ _ h4 _ ((List.dropWhile_suffix isSpace).trans hl)))
  have e3 : applySub matchVersion u = u :=
    applySub_id _ _ (fun l hl => matchVersion_none l (isSubstr_false_pre _ _ h5 l hl))
  have e4 : applySub matchPageNum u = u :=
    applySub_id _ _ (fun l hl => matchPageNum_none l
      (fun c hc => h2 c (mem_of_suffix c l u hl hc)))
  have e5 : applyFooterSub u = u :=
    applyFooterSub_id u (fun l hl => matchFooterBody_none l
      (fun c hc => h2 c (mem_of_suffix c l u hl hc)))
  have e6 : applySub matchReportHeader u = u :=
    applySub_id _ _ (fun l hl => matchReportHeader_none l (hci l hl))
  have e7 : collapseNl u.length u = u := collapseNl_id u.length u h1
  unfold cleanSourceText
  rw [e1, e2, e3, e4, e5, e6, e7]

/-- C5 (amended): clean_source_text is idempotent on single-line inputs free
of digits and of the boilerplate markers (the brochure header, the
confidentiality banner, a Version word, the periodic-report header in any
case); on such inputs it acts as a strip, and stripping is idempotent.  In
general the function is not idempotent: stripping leading whitespace can
expose a banner at the start of a line that only a second application
removes. -/
theorem clean_source_text_idem_restricted (t : Str)
    (h1 : ∀ c ∈ t, ¬ c = '\n') (h2 : ∀ c ∈ t, c.isDigit = false)
    (h3 : isSubstr kwInvBrochure t = false)
    (h4 : isSubstr kwConfidential t = false)
    (h5 : isSubstr ("Version".data) t = false)
    (h6 : isSubstr ("periodic".data) (t.map Char.toLower) = false) :
    cleanSourceText (cleanSourceText t) = cleanSourceText t := by
  have hA := cleanSourceText_eq_strip t h1 h2 h3 h4 h5 h6
  have hinf := stripWs_inf t
  have hB := cleanSourceText_eq_strip (stripWs t)
    (fun c hc => h1 c (mem_of_inf c _ t hinf hc))
    (fun c hc => h2 c (mem_of_inf c _ t hinf hc))
    (isSubstr_false_of_inf _ _ _ h3 hinf)
    (isSubstr_false_of_inf _ _ _ h4 hinf)
    (isSubstr_false_of_inf _ _ _ h5 hinf)
    (isSubstr_false_of_inf _ _ _ h6 (List.IsInfix.map Char.toLower hinf))
  rw [hA, hB, stripWs_idem]

/-- Witness for C5 (amended) at a concrete marker-free text. -/
theorem clean_source_text_idem_restricted_witness :
    cleanSourceText (cleanSourceText ("Hello brochure text".data))
      = cleanSourceText ("Hello brochure text".data) :=
  clean_source_text_idem_restricted ("Hello brochure text".data)
    (by decide) (by decide) (by decide) (by decide) (by decide) (by decide)

/-- C5 counterexample: on a line whose brochure header is preceded by two
blanks, the first application only strips the blanks — exposing the header at
the start of the line — and a second application deletes the whole line, so
the function is not idempotent. -/
theorem clean_source_text_not_idempotent :
    ¬ (cleanSourceText (cleanSourceText
          ("  Investigator".data ++ [apos] ++ "s Brochure:".data))
        = cleanSourceText ("  Investigator".data ++ [apos] ++ "s Brochure:".data)) := by
  decide

/-- C6 (amended): for a citation classified as ib or pbrer whose locator is
present in the matching index, and which compound expansion leaves unchanged,
resolve_sources produces the single record with found true and content equal
to the cleaned index value.  The expansion proviso is needed: a citation with
bracketed parenthetical remnants can classify as ib yet be compound-expanded
into other references, none of which resolves. -/
theorem resolve_found_cleaned (ref n txt : Str) (ib pbIdx : Index)
    (pb lit : Option Index) (hexp : expandCompoundRefs ref = [ref]) :
    (classifySource ref = (kIb, some n) → indexGet ib n = some txt →
      resolveSources [ref] ib pb lit
        = [⟨ref, kIb, some n, cleanSourceText txt, true⟩]) ∧
    (classifySource ref = (kPbrer, some n) → indexGet pbIdx n = some txt →
      resolveSources [ref] ib (some pbIdx) lit
        = [⟨ref, kPbrer, some n, cleanSourceText txt, true⟩]) := by
  have hexpAll : expandAll [ref] = [ref] := by
    simp [expandAll, hexp]
  constructor
  · intro hcls hidx
    rw [resolveSources_eq_map, hexpAll]
    simp only [List.map_cons, List.map_nil]
    simp [resolveOne, hcls, hidx, kIb, kIbTable]
  · intro hcls hidx
    rw [resolveSources_eq_map, hexpAll]
    simp only [List.map_cons, List.map_nil]
    simp [resolveOne, hcls, hidx, kPbrer, kIbTable, kIb]

set_option maxRecDepth 8000 in
/-- Witness for C6 (amended) at the concrete scenario of the claim. -/
theorem resolve_found_cleaned_witness :
    resolveSources (["IB 2.3".data]) [(("2.3".data : Str), ("Drug background content.".data : Str))] none none
      = [⟨"IB 2.3".data, kIb, some ("2.3".data),
          cleanSourceText ("Drug background content.".data), true⟩] := by
  exact (resolve_found_cleaned ("IB 2.3".data) ("2.3".data)
    ("Drug background content.".data)
    [(("2.3".data : Str), ("Drug background content.".data : Str))] [] none none
    (by decide)).1 (by decide) (by decide)

set_option maxRecDepth 8000 in
/-- C6 counterexample: this citation classifies as ib with locator 2.3, the
locator is present in the index, yet after parenthetical stripping the
compound expander rewrites it into two other references, and every record
resolve_sources produces has found false. -/
theorem resolve_found_cleaned_cex :
    classifySource ("IB Section 2.3 (a)b, 4.5, 6.7(c)".data)
      = (kIb, some ("2.3".data)) ∧
    indexGet [(("2.3".data : Str), ("Drug background content.".data : Str))] ("2.3".data)
      = some ("Drug background content.".data) ∧
    (resolveSources (["IB Section 2.3 (a)b, 4.5, 6.7(c)".data])
        [(("2.3".data : Str), ("Drug background content.".data : Str))] none none).map
      (fun r => r.found) = [false, false] := by
  refine ⟨by decide, by decide, by decide⟩

theorem not_space_of_numchar (c : Char) (h : c.isDigit = true ∨ c = '.') :
    isSpace c = false := by
  rcases h with h | h
  · exact not_space_of_digit c h
  · subst h; decide

theorem ne_of_numchar (c d : Char) (h : c.isDigit = true ∨ c = '.')
    (hd1 : d.isDigit = false) (hd2 : ¬ d = '.') : ¬ c = d := by
  intro he
  subst he
  rcases h with h | h
  · rw [hd1] at h; cases h
  · exact hd2 h

theorem splitGo_nil (f : Nat) (prev : Option Char) (acc : Str) :
    splitGo f prev acc [] = [acc] := by
  cases f with
  | zero => simp [splitGo]
  | succ f => rfl

theorem splitGo_through_num : ∀ (n : Str) (fuel : Nat) (prev : Option Char)
    (acc r : Str), (∀ c ∈ n, c.isDigit = true ∨ c = '.') → n.length ≤ fuel →
    splitGo fuel prev acc (n ++ r)
      = splitGo (fuel - n.length) (prevA n prev) (acc ++ n) r := by
  intro n
  induction n with
  | nil => intro fuel prev acc r _ _; simp [prevA]
  | cons c cs ih =>
    intro fuel prev acc r hch hf
    cases fuel with
    | zero =>
      exfalso
      have h1 : cs.length + 1 ≤ 0 := by simpa using hf
      omega
    | succ f =>
      have hc := hch c (List.mem_cons_self c cs)
      have hcs : ∀ x ∈ cs, x.isDigit = true ∨ x = '.' :=
        fun x hx => hch x (List.mem_cons_of_mem c hx)
      have h1 : ¬ c = ',' := ne_of_numchar c ',' hc (by decide) (by decide)
      have h2 : ¬ c = '&' := ne_of_numchar c '&' hc (by decide) (by decide)
      have h3 : ¬ c = '/' := ne_of_numchar c '/' hc (by decide) (by decide)
      have h4 : ¬ c = 'a' := ne_of_numchar c 'a' hc (by decide) (by decide)
      rw [List.cons_append]
      have key : splitGo (f + 1) prev acc (c :: (cs ++ r))
          = splitGo f (some c) (acc ++ [c]) (cs ++ r) := by
        simp [splitGo, h1, h2, h3, h4]
      rw [key, ih f (some c) (acc ++ [c]) r hcs (by
        have : cs.length + 1 ≤ f + 1 := by simpa using hf
        omega)]
      rw [show prevA (c :: cs) prev = prevA cs (some c) from rfl]
      rw [show acc ++ c :: cs = (acc ++ [c]) ++ cs by simp]
      rw [show (f + 1) - (c :: cs).length = f - cs.length by simp]

theorem splitGo_comma (f : Nat) (prev : Option Char) (acc X : Str) :
    splitGo (f + 2) prev acc (',' :: ' ' :: X)
      = acc :: splitGo f (some ' ') [' '] X := by
  simp [splitGo]

theorem splitGo_slash (f : Nat) (prev : Option Char) (acc X : Str) :
    splitGo (f + 1) prev acc ('/' :: X)
      = acc :: splitGo f (some '/') [] X := by
  simp [splitGo]

theorem splitGo_amp (f : Nat) (prev : Option Char) (acc X : Str) :
    splitGo (f + 3) prev acc (' ' :: '&' :: ' ' :: X)
      = (acc ++ [' ']) :: splitGo f (some ' ') [' '] X := by
  simp [splitGo]

theorem splitGo_and (f : Nat) (prev : Option Char) (acc X : Str) :
    splitGo (f + 3) prev acc (' ' :: 'a' :: 'n' :: 'd' :: ' ' :: X)
      = (acc ++ [' ']) :: splitGo f (some ' ') [' '] X := by
  simp [splitGo, nonWordBefore, nonWordAfter, isWordChar]

theorem splitGo_space (f : Nat) (prev : Option Char) (acc X : Str) :
    splitGo (f + 1) prev acc (' ' :: X)
      = splitGo f (some ' ') (acc ++ [' ']) X := by
  simp [splitGo]

theorem splitGo_toks : ∀ (parts : List (Sep × Str)) (n : Str) (fuel : Nat)
    (prev : Option Char) (acc : Str),
    (∀ c ∈ n, c.isDigit = true ∨ c = '.') →
    (∀ p ∈ parts, ∀ c ∈ p.2, c.isDigit = true ∨ c = '.') →
    n.length + (jn parts).length ≤ fuel →
    splitGo fuel prev acc (n ++ jn parts) = toksA acc n parts := by
  intro parts
  induction parts with
  | nil =>
    intro n fuel prev acc hn _ hf
    have h := splitGo_through_num n fuel prev acc [] hn (by
      simp [jn] at hf; omega)
    rw [show jn ([] : List (Sep × Str)) = [] from rfl, List.append_nil] at *
    rw [h, splitGo_nil]
    rfl
  | cons p rest ih =>
    obtain ⟨sep, m⟩ := p
    intro n fuel prev acc hn hparts hf
    have hm : ∀ c ∈ m, c.isDigit = true ∨ c = '.' :=
      hparts (sep, m) (List.mem_cons_self _ _)
    have hrest : ∀ p ∈ rest, ∀ c ∈ p.2, c.isDigit = true ∨ c = '.' :=
      fun p hp => hparts p (List.mem_cons_of_mem _ hp)
    have hjn : jn ((sep, m) :: rest) = (sepStr sep ++ m) ++ jn rest := by
      simp [jn]
    have hassoc : n ++ jn ((sep, m) :: rest)
        = n ++ (sepStr sep ++ (m ++ jn rest)) := by
      rw [hjn]; simp
    rw [hassoc]
    have hnf : n.length ≤ fuel := by
      have := hf; omega
    rw [splitGo_through_num n fuel prev acc _ hn hnf]
    have hfl : (sepStr sep).length + (m.length + (jn rest).length)
        ≤ fuel - n.length := by
      rw [hjn] at hf
      simp only [List.length_append] at hf
      omega
    cases sep with
    | comma =>
      obtain ⟨f2, hf2⟩ : ∃ f2, fuel - n.length = f2 + 2 :=
        ⟨fuel - n.length - 2, by simp [sepStr] at hfl; omega⟩
      rw [hf2]
      rw [show sepStr Sep.comma ++ (m ++ jn rest)
        = ',' :: ' ' :: (m ++ jn rest) from rfl]
      rw [splitGo_comma]
      rw [ih m f2 (some ' ') [' '] hm hrest (by simp [sepStr] at hfl; omega)]
      rfl
    | slash =>
      obtain ⟨f2, hf2⟩ : ∃ f2, fuel - n.length = f2 + 1 :=
        ⟨fuel - n.length - 1, by simp [sepStr] at hfl; omega⟩
      rw [hf2]
      rw [show sepStr Sep.slash ++ (m ++ jn rest)
        = '/' :: (m ++ jn rest) from rfl]
      rw [splitGo_slash]
      rw [ih m f2 (some '/') [] hm hrest (by simp [sepStr] at hfl; omega)]
      rfl
    | amp =>
      obtain ⟨f2, hf2⟩ : ∃ f2, fuel - n.length = f2 + 3 :=
        ⟨fuel - n.length - 3, by simp [sepStr] at hfl; omega⟩
      rw [hf2]
      rw [show sepStr Sep.amp ++ (m ++ jn rest)
        = ' ' :: '&' :: ' ' :: (m ++ jn rest) from rfl]
      rw [splitGo_amp]
      rw [ih m f2 (some ' ') [' '] hm hrest (by simp [sepStr] at hfl; omega)]
      rfl
    | andW =>
      obtain ⟨f2, hf2⟩ : ∃ f2, fuel - n.length = f2 + 3 :=
        ⟨fuel - n.length - 3, by simp [sepStr] at hfl; omega⟩
      rw [hf2]
      rw [show sepStr Sep.andW ++ (m ++ jn rest)
        = ' ' :: 'a' :: 'n' :: 'd' :: ' ' :: (m ++ jn rest) from rfl]
      rw [splitGo_and]
      rw [ih m f2 (some ' ') [' '] hm hrest (by simp [sepStr] at hfl; omega)]
      rfl

theorem getLast_exists_of_ne_nil (l : Str) (h : l ≠ []) :
    ∃ a, l.getLast? = some a := by
  cases hg : l.getLast? with
  | none => exact absurd (List.getLast?_eq_none_iff.mp hg) h
  | some a => exact ⟨a, rfl⟩

theorem mem_of_getLast_eq (l : Str) (a : Char) (h : l.getLast? = some a) :
    a ∈ l := by
  have h2 : l.reverse.head? = some a := by rw [List.head?_reverse]; exact h
  have h3 : a ∈ l.reverse := List.mem_of_mem_head? (by simp [h2])
  exact List.mem_reverse.mp h3

theorem stripWs_pad (lead n pad : Str) (hlead : ∀ c ∈ lead, isSpace c = true)
    (hpad : ∀ c ∈ pad, isSpace c = true) (hn : ∀ c ∈ n, isSpace c = false)
    (hne : n ≠ []) : stripWs (lead ++ n ++ pad) = n := by
  obtain ⟨c, cs, rfl⟩ := List.exists_cons_of_ne_nil hne
  unfold stripWs
  rw [List.append_assoc, dropWhile_append_spaces _ _ hlead]
  rw [List.cons_append,
    dropWhile_cons_neg c (cs ++ pad) (hn c (List.mem_cons_self c cs))]
  rw [show c :: (cs ++ pad) = (c :: cs) ++ pad by simp, List.reverse_append]
  rw [dropWhile_append_spaces _ _ (fun x hx => hpad x (List.mem_reverse.mp hx))]
  obtain ⟨d, ds, hds⟩ :=
    List.exists_cons_of_ne_nil (by simp : (c :: cs).reverse ≠ [])
  have hdm : d ∈ c :: cs := by
    rw [← List.mem_reverse, hds]; exact List.mem_cons_self d ds
  rw [hds, dropWhile_cons_neg d ds (hn d hdm), ← hds, List.reverse_reverse]

theorem stripWs_eq_self_of_ends (s : Str)
    (hh : ∀ c, s.head? = some c → isSpace c = false)
    (hl : ∀ c, s.getLast? = some c → isSpace c = false) :
    stripWs s = s := by
  cases s with
  | nil => rfl
  | cons c cs =>
    have hc : isSpace c = false := hh c rfl
    unfold stripWs
    rw [dropWhile_cons_neg c cs hc]
    obtain ⟨d, ds, hds⟩ :=
      List.exists_cons_of_ne_nil (by simp : (c :: cs).reverse ≠ [])
    have hdl : (c :: cs).getLast? = some d := by
      rw [← List.head?_reverse, hds]; rfl
    rw [hds, dropWhile_cons_neg d ds (hl d hdl), ← hds, List.reverse_reverse]

theorem removeParens_id : ∀ (fuel : Nat) (s : Str), (∀ c ∈ s, ¬ c = '(') →
    removeParens fuel s = s := by
  intro fuel
  induction fuel with
  | zero => intro s _; rfl
  | succ f ih =>
    intro s h
    cases s with
    | nil => rfl
    | cons c cs =>
      have hc := h c (List.mem_cons_self c cs)
      show removeParens (f + 1) (c :: cs) = c :: cs
      rw [removeParens, if_neg hc,
        ih cs (fun x hx => h x (List.mem_cons_of_mem c hx))]

theorem jn_mem_cases : ∀ (parts : List (Sep × Str)) (c : Char),
    c ∈ jn parts →
    (∃ s : Sep, c ∈ sepStr s) ∨ (∃ p ∈ parts, c ∈ p.2) := by
  intro parts
  induction parts with
  | nil => intro c hc; simp [jn] at hc
  | cons p rest ih =>
    intro c hc
    rw [show jn (p :: rest) = (sepStr p.1 ++ p.2) ++ jn rest by simp [jn]] at hc
    rcases List.mem_append.mp hc with h | h
    · rcases List.mem_append.mp h with h | h
      · exact Or.inl ⟨p.1, h⟩
      · exact Or.inr ⟨p, List.mem_cons_self p rest, h⟩
    · rcases ih c h with h2 | ⟨q, hq, hc2⟩
      · exact Or.inl h2
      · exact Or.inr ⟨q, List.mem_cons_of_mem p hq, hc2⟩

theorem jn_getLast_numchar : ∀ (parts : List (Sep × Str)), parts ≠ [] →
    (∀ p ∈ parts, p.2 ≠ [] ∧ ∀ c ∈ p.2, c.isDigit = true ∨ c = '.') →
    ∃ d, (jn parts).getLast? = some d ∧ (d.isDigit = true ∨ d = '.') := by
  intro parts
  induction parts with
  | nil => intro h; cases h rfl
  | cons p rest ih =>
    intro _ hp
    by_cases hr : rest = []
    · subst hr
      obtain ⟨hne, hch⟩ := hp p (List.mem_cons_self p [])
      obtain ⟨d, hd⟩ := getLast_exists_of_ne_nil p.2 hne
      refine ⟨d, ?_, hch d (mem_of_getLast_eq p.2 d hd)⟩
      rw [show jn [p] = sepStr p.1 ++ (p.2 ++ []) by simp [jn]]
      rw [List.append_nil, List.getLast?_append_of_ne_nil _ hne, hd]
    · obtain ⟨d, hd, hPd⟩ := ih hr (fun q hq => hp q (List.mem_cons_of_mem p hq))
      have hjr : jn rest ≠ [] := by
        intro h0; rw [h0] at hd; cases hd
      refine ⟨d, ?_, hPd⟩
      rw [show jn (p :: rest) = (sepStr p.1 ++ p.2) ++ jn rest by simp [jn]]
      rw [List.getLast?_append_of_ne_nil _ hjr, hd]

theorem sep_chars_plain : ∀ s : Sep, ∀ c ∈ sepStr s,
    ¬ c = '\n' ∧ ¬ c = '(' := by
  intro s
  cases s <;> decide

theorem compoundGroup_some (c : Char) (X : Str) (hc : inCompoundSet c = true)
    (hX : ∀ x ∈ c :: X, ¬ x = '\n') :
    compoundGroup (c :: X) = some (c :: X) := by
  have hall : ((c :: X).dropWhile inCompoundSet).all
      (fun x => x ≠ '\n') = true := by
    rw [List.all_eq_true]
    intro x hx
    have hx2 : x ∈ c :: X := (List.dropWhile_sublist inCompoundSet).mem hx
    simp [hX x hx2]
  show (if inCompoundSet c
      && ((c :: X).dropWhile inCompoundSet).all (fun x => x ≠ '\n')
    then some (c :: X) else none) = some (c :: X)
  rw [hc, hall]
  rfl

theorem toksA_process : ∀ (parts : List (Sep × Str)) (n acc : Str),
    (∀ c ∈ n, c.isDigit = true ∨ c = '.') → isDottedNum n = true →
    (∀ p ∈ parts, (∀ c ∈ p.2, c.isDigit = true ∨ c = '.')
      ∧ isDottedNum p.2 = true) →
    (∀ c ∈ acc, isSpace c = true) →
    ((toksA acc n parts).map stripWs).filter isDottedNum
      = n :: parts.map (fun p => p.2) := by
  intro parts
  induction parts with
  | nil =>
    intro n acc hch hdn _ hacc
    have hne : n ≠ [] := by
      intro h0; rw [h0] at hdn; cases hdn
    have hs : stripWs (acc ++ n) = n := by
      have := stripWs_pad acc n [] hacc (by intro c hc; cases hc)
        (fun c hc => not_space_of_numchar c (hch c hc)) hne
      rwa [List.append_nil] at this
    simp [toksA, hs, hdn]
  | cons p rest ih =>
    obtain ⟨sep, m⟩ := p
    intro n acc hch hdn hps hacc
    have hne : n ≠ [] := by
      intro h0; rw [h0] at hdn; cases hdn
    have hmch := (hps (sep, m) (List.mem_cons_self _ _)).1
    have hmdn := (hps (sep, m) (List.mem_cons_self _ _)).2
    have hrest : ∀ p ∈ rest, (∀ c ∈ p.2, c.isDigit = true ∨ c = '.')
        ∧ isDottedNum p.2 = true :=
      fun p hp => hps p (List.mem_cons_of_mem _ hp)
    have hs0 : stripWs (acc ++ n) = n := by
      have := stripWs_pad acc n [] hacc (by intro c hc; cases hc)
        (fun c hc => not_space_of_numchar c (hch c hc)) hne
      rwa [List.append_nil] at this
    have hs1 : stripWs (acc ++ n ++ [' ']) = n :=
      stripWs_pad acc n [' '] hacc (by intro c hc; simp at hc; subst hc; rfl)
        (fun c hc => not_space_of_numchar c (hch c hc)) hne
    cases sep with
    | comma =>
      rw [show toksA acc n ((Sep.comma, m) :: rest)
        = (acc ++ n) :: toksA [' '] m rest from rfl]
      rw [List.map_cons, hs0, List.filter_cons]
      rw [ih m [' '] hmch hmdn hrest (by intro c hc; simp at hc; subst hc; rfl)]
      simp [hdn]
    | slash =>
      rw [show toksA acc n ((Sep.slash, m) :: rest)
        = (acc ++ n) :: toksA [] m rest from rfl]
      rw [List.map_cons, hs0, List.filter_cons]
      rw [ih m [] hmch hmdn hrest (by intro c hc; cases hc)]
      simp [hdn]
    | amp =>
      rw [show toksA acc n ((Sep.amp, m) :: rest)
        = (acc ++ n ++ [' ']) :: toksA [' '] m rest from rfl]
      rw [List.map_cons, hs1, List.filter_cons]
      rw [ih m [' '] hmch hmdn hrest (by intro c hc; simp at hc; subst hc; rfl)]
      simp [hdn]
    | andW =>
      rw [show toksA acc n ((Sep.andW, m) :: rest)
        = (acc ++ n ++ [' ']) :: toksA [' '] m rest from rfl]
      rw [List.map_cons, hs1, List.filter_cons]
      rw [ih m [' '] hmch hmdn hrest (by intro c hc; simp at hc; subst hc; rfl)]
      simp [hdn]

set_option maxHeartbeats 1000000 in
theorem expand_mkIB (n0 : Str) (parts : List (Sep × Str))
    (hn0c : ∀ c ∈ n0, c.isDigit = true ∨ c = '.') (hn0 : isDottedNum n0 = true)
    (hps : ∀ p ∈ parts, (∀ c ∈ p.2, c.isDigit = true ∨ c = '.')
      ∧ isDottedNum p.2 = true)
    (hne : parts ≠ []) :
    expandCompoundRefs (mkIBCompound n0 parts)
      = ("IB Section ".data ++ n0)
        :: parts.map (fun p => "IB Section ".data ++ p.2) := by
  have hpne : ∀ p ∈ parts, p.2 ≠ [] := by
    intro p hp h0
    have := (hps p hp).2
    rw [h0] at this
    cases this
  have hXnum : ∀ c ∈ n0 ++ jn parts, ¬ c = '\n' ∧ ¬ c = '(' := by
    intro c hc
    rcases List.mem_append.mp hc with h | h
    · have hcn := hn0c c h
      exact ⟨ne_of_numchar c '\n' hcn (by decide) (by decide),
             ne_of_numchar c '(' hcn (by decide) (by decide)⟩
    · rcases jn_mem_cases parts c h with ⟨s, hs⟩ | ⟨p, hp, hcp⟩
      · exact sep_chars_plain s c hs
      · have hcn := (hps p hp).1 c hcp
        exact ⟨ne_of_numchar c '\n' hcn (by decide) (by decide),
               ne_of_numchar c '(' hcn (by decide) (by decide)⟩
  have hshape : mkIBCompound n0 parts
      = 'I' :: 'B' :: ' ' :: 'S' :: 'e' :: 'c' :: 't' :: 'i' :: 'o' :: 'n'
        :: 's' :: ' ' :: (n0 ++ jn parts) := by
    show ("IB Sections ".data ++ n0) ++ jn parts = _
    simp
  obtain ⟨d, hd, hdnum⟩ :=
    jn_getLast_numchar parts hne (fun p hp => ⟨hpne p hp, (hps p hp).1⟩)
  have hjnne : jn parts ≠ [] := by
    intro h0; rw [h0] at hd; cases hd
  have hlast : (mkIBCompound n0 parts).getLast? = some d := by
    rw [show mkIBCompound n0 parts
      = ("IB Sections ".data ++ n0) ++ jn parts from rfl]
    rw [List.getLast?_append_of_ne_nil _ hjnne, hd]
  have hstrip : stripWs (mkIBCompound n0 parts) = mkIBCompound n0 parts := by
    apply stripWs_eq_self_of_ends
    · intro c hc
      rw [hshape] at hc
      have : c = 'I' := (Option.some.inj hc).symm
      subst this
      decide
    · intro c hc
      rw [hlast] at hc
      have : c = d := (Option.some.inj hc).symm
      subst this
      exact not_space_of_numchar c hdnum
  have hnp : ∀ c ∈ mkIBCompound n0 parts, ¬ c = '(' := by
    intro c hc
    rw [show mkIBCompound n0 parts
      = "IB Sections ".data ++ (n0 ++ jn parts) by
        rw [show mkIBCompound n0 parts
          = ("IB Sections ".data ++ n0) ++ jn parts from rfl]
        simp] at hc
    rcases List.mem_append.mp hc with h | h
    · have hall : ∀ x ∈ ("IB Sections ".data), ¬ x = '(' := by decide
      exact hall c h
    · exact (hXnum c h).2
  have hclean : stripWs (removeParens (stripWs (mkIBCompound n0 parts)).length
      (stripWs (mkIBCompound n0 parts))) = mkIBCompound n0 parts := by
    rw [hstrip, removeParens_id _ _ hnp, hstrip]
  have hdrop0 : (mkIBCompound n0 parts).dropWhile isSpace
      = mkIBCompound n0 parts := by
    rw [hshape]
    exact dropWhile_cons_neg _ _ (by decide)
  have hib : matchCI ("ib".data) (mkIBCompound n0 parts)
      = some (' ' :: 'S' :: 'e' :: 'c' :: 't' :: 'i' :: 'o' :: 'n' :: 's'
        :: ' ' :: (n0 ++ jn parts)) := by
    rw [hshape]
    exact matchCI_of_lowers ("ib".data) ['I', 'B'] _ (by decide)
  have hdrop1 : (' ' :: 'S' :: 'e' :: 'c' :: 't' :: 'i' :: 'o' :: 'n' :: 's'
        :: ' ' :: (n0 ++ jn parts)).dropWhile isSpace
      = 'S' :: 'e' :: 'c' :: 't' :: 'i' :: 'o' :: 'n' :: 's'
        :: (' ' :: (n0 ++ jn parts)) := by
    rw [show (' ' :: 'S' :: 'e' :: 'c' :: 't' :: 'i' :: 'o' :: 'n' :: 's'
        :: ' ' :: (n0 ++ jn parts))
      = [' '] ++ ('S' :: 'e' :: 'c' :: 't' :: 'i' :: 'o' :: 'n' :: 's'
        :: (' ' :: (n0 ++ jn parts))) from rfl]
    rw [dropWhile_append_spaces _ _ (by decide)]
    exact dropWhile_cons_neg _ _ (by decide)
  have hsec : matchCI ("sections".data) ('S' :: 'e' :: 'c' :: 't' :: 'i'
        :: 'o' :: 'n' :: 's' :: (' ' :: (n0 ++ jn parts)))
      = some (' ' :: (n0 ++ jn parts)) :=
    matchCI_of_lowers ("sections".data)
      ['S', 'e', 'c', 't', 'i', 'o', 'n', 's'] _ (by decide)
  have hgrp : compoundGroup (' ' :: (n0 ++ jn parts))
      = some (' ' :: (n0 ++ jn parts)) := by
    apply compoundGroup_some ' ' _ (by decide)
    intro x hx
    rcases List.mem_cons.mp hx with h | h
    · subst h; decide
    · exact (hXnum x h).1
  have hIBg : compoundIBGroup (mkIBCompound n0 parts)
      = some (' ' :: (n0 ++ jn parts)) := by
    unfold compoundIBGroup
    rw [hdrop0, hib]
    dsimp only
    rw [hdrop1, hsec]
    dsimp only
    rw [hgrp]
  have hsplit : splitSeps (' ' :: (n0 ++ jn parts)) = toksA [' '] n0 parts := by
    unfold splitSeps
    rw [show (' ' :: (n0 ++ jn parts)).length
      = (n0 ++ jn parts).length + 1 by simp]
    rw [splitGo_space]
    rw [show ([] : Str) ++ [' '] = [' '] from rfl]
    exact splitGo_toks parts n0 _ (some ' ') [' '] hn0c
      (fun p hp => (hps p hp).1) (by simp)
  have hbuild : compoundBuild ("IB Section ".data) (' ' :: (n0 ++ jn parts))
      = ("IB Section ".data ++ n0)
        :: parts.map (fun p => "IB Section ".data ++ p.2) := by
    unfold compoundBuild
    rw [hsplit, toksA_process parts n0 [' '] hn0c hn0 hps
      (by intro c hc; simp at hc; subst hc; rfl)]
    simp
  have hlen : 1 < (("IB Section ".data ++ n0)
      :: parts.map (fun p => "IB Section ".data ++ p.2)).length := by
    obtain ⟨q, qs, rfl⟩ := List.exists_cons_of_ne_nil hne
    simp
  unfold expandCompoundRefs
  simp only [hclean, hIBg]
  simp only [hbuild]
  rw [if_pos hlen]

set_option maxHeartbeats 1000000 in
theorem expand_mkPB (n0 : Str) (parts : List (Sep × Str))
    (hn0c : ∀ c ∈ n0, c.isDigit = true ∨ c = '.') (hn0 : isDottedNum n0 = true)
    (hps : ∀ p ∈ parts, (∀ c ∈ p.2, c.isDigit = true ∨ c = '.')
      ∧ isDottedNum p.2 = true)
    (hne : parts ≠ []) :
    expandCompoundRefs (mkPBCompound n0 parts)
      = ("PBRER ".data ++ n0)
        :: parts.map (fun p => "PBRER ".data ++ p.2) := by
  have hpne : ∀ p ∈ parts, p.2 ≠ [] := by
    intro p hp h0
    have := (hps p hp).2
    rw [h0] at this
    cases this
  have hXnum : ∀ c ∈ n0 ++ jn parts, ¬ c = '\n' ∧ ¬ c = '(' := by
    intro c hc
    rcases List.mem_append.mp hc with h | h
    · have hcn := hn0c c h
      exact ⟨ne_of_numchar c '\n' hcn (by decide) (by decide),
             ne_of_numchar c '(' hcn (by decide) (by decide)⟩
    · rcases jn_mem_cases parts c h with ⟨s, hs⟩ | ⟨p, hp, hcp⟩
      · exact sep_chars_plain s c hs
      · have hcn := (hps p hp).1 c hcp
        exact ⟨ne_of_numchar c '\n' hcn (by decide) (by decide),
               ne_of_numchar c '(' hcn (by decide) (by decide)⟩
  have hshape : mkPBCompound n0 parts
      = 'P' :: 'B' :: 'R' :: 'E' :: 'R' :: ' ' :: 'S' :: 'e' :: 'c' :: 't'
        :: 'i' :: 'o' :: 'n' :: 's' :: ' ' :: (n0 ++ jn parts) := by
    show ("PBRER Sections ".data ++ n0) ++ jn parts = _
    simp
  obtain ⟨d, hd, hdnum⟩ :=
    jn_getLast_numchar parts hne (fun p hp => ⟨hpne p hp, (hps p hp).1⟩)
  have hjnne : jn parts ≠ [] := by
    intro h0; rw [h0] at hd; cases hd
  have hlast : (mkPBCompound n0 parts).getLast? = some d := by
    rw [show mkPBCompound n0 parts
      = ("PBRER Sections ".data ++ n0) ++ jn parts from rfl]
    rw [List.getLast?_append_of_ne_nil _ hjnne, hd]
  have hstrip : stripWs (mkPBCompound n0 parts) = mkPBCompound n0 parts := by
    apply stripWs_eq_self_of_ends
    · intro c hc
      rw [hshape] at hc
      have : c = 'P' := (Option.some.inj hc).symm
      subst this
      decide
    · intro c hc
      rw [hlast] at hc
      have : c = d := (Option.some.inj hc).symm
      subst this
      exact not_space_of_numchar c hdnum
  have hnp : ∀ c ∈ mkPBCompound n0 parts, ¬ c = '(' := by
    intro c hc
    rw [show mkPBCompound n0 parts
      = "PBRER Sections ".data ++ (n0 ++ jn parts) by
        rw [show mkPBCompound n0 parts
          = ("PBRER Sections ".data ++ n0) ++ jn parts from rfl]
        simp] at hc
    rcases List.mem_append.mp hc with h | h
    · have hall : ∀ x ∈ ("PBRER Sections ".data), ¬ x = '(' := by decide
      exact hall c h
    · exact (hXnum c h).2
  have hclean : stripWs (removeParens (stripWs (mkPBCompound n0 parts)).length
      (stripWs (mkPBCompound n0 parts))) = mkPBCompound n0 parts := by
    rw [hstrip, removeParens_id _ _ hnp, hstrip]
  have hdrop0 : (mkPBCompound n0 parts).dropWhile isSpace
      = mkPBCompound n0 parts := by
    rw [hshape]
    exact dropWhile_cons_neg _ _ (by decide)
  have hIBg : compoundIBGroup (mkPBCompound n0 parts) = none := by
    unfold compoundIBGroup
    rw [hdrop0, hshape]
    rw [matchCI_stop 'i' ['b'] 'P' _ (by decide)]
  have hpb : matchCI ("pbrer".data) (mkPBCompound n0 parts)
      = some (' ' :: 'S' :: 'e' :: 'c' :: 't' :: 'i' :: 'o' :: 'n' :: 's'
        :: ' ' :: (n0 ++ jn parts)) := by
    rw [hshape]
    exact matchCI_of_lowers ("pbrer".data) ['P', 'B', 'R', 'E', 'R'] _ (by decide)
  have hdrop1 : (' ' :: 'S' :: 'e' :: 'c' :: 't' :: 'i' :: 'o' :: 'n' :: 's'
        :: ' ' :: (n0 ++ jn parts)).dropWhile isSpace
      = 'S' :: 'e' :: 'c' :: 't' :: 'i' :: 'o' :: 'n' :: 's'
        :: (' ' :: (n0 ++ jn parts)) := by
    rw [show (' ' :: 'S' :: 'e' :: 'c' :: 't' :: 'i' :: 'o' :: 'n' :: 's'
        :: ' ' :: (n0 ++ jn parts))
      = [' '] ++ ('S' :: 'e' :: 'c' :: 't' :: 'i' :: 'o' :: 'n' :: 's'
        :: (' ' :: (n0 ++ jn parts))) from rfl]
    rw [dropWhile_append_spaces _ _ (by decide)]
    exact dropWhile_cons_neg _ _ (by decide)
  have hsec : matchCI ("sections".data) ('S' :: 'e' :: 'c' :: 't' :: 'i'
        :: 'o' :: 'n' :: 's' :: (' ' :: (n0 ++ jn parts)))
      = some (' ' :: (n0 ++ jn parts)) :=
    matchCI_of_lowers ("sections".data)
      ['S', 'e', 'c', 't', 'i', 'o', 'n', 's'] _ (by decide)
  have hgrp : compoundGroup (' ' :: (n0 ++ jn parts))
      = some (' ' :: (n0 ++ jn parts)) := by
    apply compoundGroup_some ' ' _ (by decide)
    intro x hx
    rcases List.mem_cons.mp hx with h | h
    · subst h; decide
    · exact (hXnum x h).1
  have hPBg : compoundPBRERGroup (mkPBCompound n0 parts)
      = some (' ' :: (n0 ++ jn parts)) := by
    unfold compoundPBRERGroup
    rw [hdrop0, hpb]
    dsimp only
    rw [hdrop1, hsec]
    dsimp only
    rw [hgrp]
  have hsplit : splitSeps (' ' :: (n0 ++ jn parts)) = toksA [' '] n0 parts := by
    unfold splitSeps
    rw [show (' ' :: (n0 ++ jn parts)).length
      = (n0 ++ jn parts).length + 1 by simp]
    rw [splitGo_space]
    rw [show ([] : Str) ++ [' '] = [' '] from rfl]
    exact splitGo_toks parts n0 _ (some ' ') [' '] hn0c
      (fun p hp => (hps p hp).1) (by simp)
  have hbuild : compoundBuild ("PBRER ".data) (' ' :: (n0 ++ jn parts))
      = ("PBRER ".data ++ n0)
        :: parts.map (fun p => "PBRER ".data ++ p.2) := by
    unfold compoundBuild
    rw [hsplit, toksA_process parts n0 [' '] hn0c hn0 hps
      (by intro c hc; simp at hc; subst hc; rfl)]
    simp
  have hlen : 1 < (("PBRER ".data ++ n0)
      :: parts.map (fun p => "PBRER ".data ++ p.2)).length := by
    obtain ⟨q, qs, rfl⟩ := List.exists_cons_of_ne_nil hne
    simp
  unfold expandCompoundRefs
  simp only [hclean, hIBg]
  simp only [List.length_nil, hPBg, hbuild]
  rw [if_neg (by simp), if_pos hlen]

theorem expandCompoundRefs_none_none (ref : Str)
    (hIB : compoundIBGroup
      (stripWs (removeParens (stripWs ref).length (stripWs ref))) = none)
    (hPB : compoundPBRERGroup
      (stripWs (removeParens (stripWs ref).length (stripWs ref))) = none) :
    expandCompoundRefs ref = [ref] := by
  unfold expandCompoundRefs
  simp only [hIB, hPB]
  simp only [List.length_nil]
  rw [if_neg (by decide), if_neg (by decide)]

theorem ne_of_lcEq (c b d : Char) (h : lcEq c b) (hd : ¬ d.toLower = b.toLower) :
    ¬ c = d := by
  intro he
  subst he
  exact hd h

theorem ne_paren_of_space (c : Char) (h : isSpace c = true) : ¬ c = '(' := by
  intro he
  subst he
  exact absurd h (by decide)

set_option maxHeartbeats 1000000 in
theorem expand_singleton_ib (n : Str)
    (hch : ∀ c ∈ n, c.isDigit = true ∨ c = '.')
    (hdn : isDottedNum n = true) :
    expandCompoundRefs ("IB Section ".data ++ n) = ["IB Section ".data ++ n] := by
  have hne : n ≠ [] := by
    intro h0; rw [h0] at hdn; cases hdn
  have hshape : "IB Section ".data ++ n
      = 'I' :: 'B' :: ' ' :: 'S' :: 'e' :: 'c' :: 't' :: 'i' :: 'o' :: 'n'
        :: ' ' :: n := rfl
  obtain ⟨d, hd⟩ := getLast_exists_of_ne_nil n hne
  have hdnum := hch d (mem_of_getLast_eq n d hd)
  have hlast : ("IB Section ".data ++ n).getLast? = some d := by
    rw [List.getLast?_append_of_ne_nil _ hne, hd]
  have hstrip : stripWs ("IB Section ".data ++ n) = "IB Section ".data ++ n := by
    apply stripWs_eq_self_of_ends
    · intro c hc
      rw [hshape] at hc
      have : c = 'I' := (Option.some.inj hc).symm
      subst this
      decide
    · intro c hc
      rw [hlast] at hc
      have : c = d := (Option.some.inj hc).symm
      subst this
      exact not_space_of_numchar c hdnum
  have hnp : ∀ c ∈ "IB Section ".data ++ n, ¬ c = '(' := by
    intro c hc
    rcases List.mem_append.mp hc with h | h
    · have hall : ∀ x ∈ ("IB Section ".data), ¬ x = '(' := by decide
      exact hall c h
    · exact ne_of_numchar c '(' (hch c h) (by decide) (by decide)
  have hclean : stripWs (removeParens
      (stripWs ("IB Section ".data ++ n)).length
      (stripWs ("IB Section ".data ++ n))) = "IB Section ".data ++ n := by
    rw [hstrip, removeParens_id _ _ hnp, hstrip]
  have hdrop0 : ("IB Section ".data ++ n).dropWhile isSpace
      = "IB Section ".data ++ n := by
    rw [hshape]
    exact dropWhile_cons_neg _ _ (by decide)
  have hib : matchCI ("ib".data) ("IB Section ".data ++ n)
      = some (' ' :: 'S' :: 'e' :: 'c' :: 't' :: 'i' :: 'o' :: 'n'
        :: ' ' :: n) := by
    rw [hshape]
    exact matchCI_of_lowers ("ib".data) ['I', 'B'] _ (by decide)
  have hdrop1 : (' ' :: 'S' :: 'e' :: 'c' :: 't' :: 'i' :: 'o' :: 'n'
        :: ' ' :: n).dropWhile isSpace
      = 'S' :: 'e' :: 'c' :: 't' :: 'i' :: 'o' :: 'n' :: (' ' :: n) := by
    rw [show (' ' :: 'S' :: 'e' :: 'c' :: 't' :: 'i' :: 'o' :: 'n'
        :: ' ' :: n)
      = [' '] ++ ('S' :: 'e' :: 'c' :: 't' :: 'i' :: 'o' :: 'n'
        :: (' ' :: n)) from rfl]
    rw [dropWhile_append_spaces _ _ (by decide)]
    exact dropWhile_cons_neg _ _ (by decide)
  have hsecs : matchCI ("sections".data)
      ('S' :: 'e' :: 'c' :: 't' :: 'i' :: 'o' :: 'n' :: (' ' :: n)) = none := by
    have h2 := matchCI_prefix_continue ['s'] (' ' :: n)
      (show List.Forall₂ lcEq ['S', 'e', 'c', 't', 'i', 'o', 'n']
        ("section".data) by decide)
    rw [matchCI_stop 's' [] ' ' n (by decide)] at h2
    exact h2
  have hsec : matchCI ("section".data)
      ('S' :: 'e' :: 'c' :: 't' :: 'i' :: 'o' :: 'n' :: (' ' :: n))
      = some (' ' :: n) :=
    matchCI_of_lowers ("section".data)
      ['S', 'e', 'c', 't', 'i', 'o', 'n'] _ (by decide)
  have hgrp : compoundGroup (' ' :: n) = some (' ' :: n) := by
    apply compoundGroup_some ' ' _ (by decide)
    intro x hx
    rcases List.mem_cons.mp hx with h | h
    · subst h; decide
    · exact ne_of_numchar x '\n' (hch x h) (by decide) (by decide)
  have hIBg : compoundIBGroup ("IB Section ".data ++ n) = some (' ' :: n) := by
    unfold compoundIBGroup
    rw [hdrop0, hib]
    dsimp only
    rw [hdrop1, hsecs, hsec]
    dsimp only
    rw [hgrp]
  have hsplit : splitSeps (' ' :: n) = toksA [' '] n [] := by
    unfold splitSeps
    rw [show (' ' :: n).length = n.length + 1 by simp]
    rw [splitGo_space]
    rw [show ([] : Str) ++ [' '] = [' '] from rfl]
    have h := splitGo_toks [] n n.length (some ' ') [' '] hch
      (by intro p hp; cases hp) (by simp [jn])
    rw [show n ++ jn ([] : List (Sep × Str)) = n by simp [jn]] at h
    exact h
  have hbuild : compoundBuild ("IB Section ".data) (' ' :: n)
      = ["IB Section ".data ++ n] := by
    unfold compoundBuild
    rw [hsplit, toksA_process [] n [' '] hch hdn (by intro p hp; cases hp)
      (by intro c hc; simp at hc; subst hc; rfl)]
    simp
  have hPBg : compoundPBRERGroup ("IB Section ".data ++ n) = none := by
    unfold compoundPBRERGroup
    rw [hdrop0, hshape]
    rw [matchCI_stop 'p' ("brer".data) 'I' _ (by decide)]
  unfold expandCompoundRefs
  simp only [hclean, hIBg, hbuild, hPBg]
  simp only [List.length_cons, List.length_nil]
  rw [if_neg (by decide), if_neg (by decide)]

set_option maxHeartbeats 1000000 in
theorem expand_ib_table (ib tb w2 w3 n : Str)
    (hib : List.Forall₂ lcEq ib ("ib".data))
    (htb : List.Forall₂ lcEq tb ("table".data))
    (hw2 : ∀ c ∈ w2, isSpace c = true) (hw3 : ∀ c ∈ w3, isSpace c = true)
    (hne : n ≠ []) (hnd : ∀ c ∈ n, c.isDigit = true) :
    expandCompoundRefs (ib ++ w2 ++ tb ++ w3 ++ n)
      = [ib ++ w2 ++ tb ++ w3 ++ n] := by
  rw [show ("ib".data) = ['i', 'b'] from rfl] at hib
  rw [show ("table".data) = ['t', 'a', 'b', 'l', 'e'] from rfl] at htb
  rcases hib with _ | ⟨hc1, _ | ⟨hc2, _ | _⟩⟩
  rcases htb with _ | ⟨ht1, _ | ⟨ht2, _ | ⟨ht3, _ | ⟨ht4, _ | ⟨ht5, _ | _⟩⟩⟩⟩⟩
  rename_i c1 c2 t1 t2 t3 t4 t5
  have hs0 : [c1, c2] ++ w2 ++ [t1, t2, t3, t4, t5] ++ w3 ++ n
      = c1 :: c2 :: (w2 ++ (t1 :: t2 :: t3 :: t4 :: t5 :: (w3 ++ n))) := by
    simp
  obtain ⟨d, hd⟩ := getLast_exists_of_ne_nil n hne
  have hdd := hnd d (mem_of_getLast_eq n d hd)
  have hlast : ([c1, c2] ++ w2 ++ [t1, t2, t3, t4, t5] ++ w3 ++ n).getLast?
      = some d := by
    rw [List.getLast?_append_of_ne_nil _ hne, hd]
  have hc1s : isSpace c1 = false := not_space_of_lcEq c1 'i' (by decide) hc1
  have hstrip : stripWs ([c1, c2] ++ w2 ++ [t1, t2, t3, t4, t5] ++ w3 ++ n)
      = [c1, c2] ++ w2 ++ [t1, t2, t3, t4, t5] ++ w3 ++ n := by
    apply stripWs_eq_self_of_ends
    · intro c hc
      rw [hs0] at hc
      have : c = c1 := (Option.some.inj hc).symm
      subst this
      exact hc1s
    · intro c hc
      rw [hlast] at hc
      have : c = d := (Option.some.inj hc).symm
      subst this
      exact not_space_of_digit c hdd
  have hnp : ∀ c ∈ [c1, c2] ++ w2 ++ [t1, t2, t3, t4, t5] ++ w3 ++ n,
      ¬ c = '(' := by
    intro c hc
    rw [hs0] at hc
    rcases List.mem_cons.mp hc with h | h
    · rw [h]; exact ne_of_lcEq c1 'i' '(' hc1 (by decide)
    rcases List.mem_cons.mp h with h | h
    · rw [h]; exact ne_of_lcEq c2 'b' '(' hc2 (by decide)
    rcases List.mem_append.mp h with h | h
    · exact ne_paren_of_space c (hw2 c h)
    rcases List.mem_cons.mp h with h | h
    · rw [h]; exact ne_of_lcEq t1 't' '(' ht1 (by decide)
    rcases List.mem_cons.mp h with h | h
    · rw [h]; exact ne_of_lcEq t2 'a' '(' ht2 (by decide)
    rcases List.mem_cons.mp h with h | h
    · rw [h]; exact ne_of_lcEq t3 'b' '(' ht3 (by decide)
    rcases List.mem_cons.mp h with h | h
    · rw [h]; exact ne_of_lcEq t4 'l' '(' ht4 (by decide)
    rcases List.mem_cons.mp h with h | h
    · rw [h]; exact ne_of_lcEq t5 'e' '(' ht5 (by decide)
    rcases List.mem_append.mp h with h | h
    · exact ne_paren_of_space c (hw3 c h)
    · exact ne_of_numchar c '(' (Or.inl (hnd c h)) (by decide) (by decide)
  have hclean : stripWs (removeParens
      (stripWs ([c1, c2] ++ w2 ++ [t1, t2, t3, t4, t5] ++ w3 ++ n)).length
      (stripWs ([c1, c2] ++ w2 ++ [t1, t2, t3, t4, t5] ++ w3 ++ n)))
      = [c1, c2] ++ w2 ++ [t1, t2, t3, t4, t5] ++ w3 ++ n := by
    rw [hstrip, removeParens_id _ _ hnp, hstrip]
  have hdrop0 : ([c1, c2] ++ w2 ++ [t1, t2, t3, t4, t5] ++ w3 ++ n).dropWhile
      isSpace = [c1, c2] ++ w2 ++ [t1, t2, t3, t4, t5] ++ w3 ++ n := by
    rw [hs0]
    exact dropWhile_cons_neg _ _ hc1s
  have hmib : matchCI ("ib".data)
      ([c1, c2] ++ w2 ++ [t1, t2, t3, t4, t5] ++ w3 ++ n)
      = some (w2 ++ (t1 :: t2 :: t3 :: t4 :: t5 :: (w3 ++ n))) := by
    rw [hs0]
    exact matchCI_of_lowers ("ib".data) [c1, c2] _
      (by exact List.Forall₂.cons hc1 (List.Forall₂.cons hc2 List.Forall₂.nil))
  have hdrop1 : (w2 ++ (t1 :: t2 :: t3 :: t4 :: t5 :: (w3 ++ n))).dropWhile
      isSpace = t1 :: (t2 :: t3 :: t4 :: t5 :: (w3 ++ n)) := by
    rw [dropWhile_append_spaces _ _ hw2]
    exact dropWhile_cons_neg _ _ (not_space_of_lcEq t1 't' (by decide) ht1)
  have hsecs : matchCI ("sections".data)
      (t1 :: (t2 :: t3 :: t4 :: t5 :: (w3 ++ n))) = none :=
    matchCI_stop 's' _ t1 _ (fun hcon => absurd (ht1.symm.trans hcon) (by decide))
  have hsec : matchCI ("section".data)
      (t1 :: (t2 :: t3 :: t4 :: t5 :: (w3 ++ n))) = none :=
    matchCI_stop 's' _ t1 _ (fun hcon => absurd (ht1.symm.trans hcon) (by decide))
  have hIBg : compoundIBGroup ([c1, c2] ++ w2 ++ [t1, t2, t3, t4, t5] ++ w3 ++ n)
      = none := by
    unfold compoundIBGroup
    rw [hdrop0, hmib]
    dsimp only
    rw [hdrop1, hsecs, hsec]
  have hPBg : compoundPBRERGroup
      ([c1, c2] ++ w2 ++ [t1, t2, t3, t4, t5] ++ w3 ++ n) = none := by
    unfold compoundPBRERGroup
    rw [hdrop0, hs0]
    rw [matchCI_stop 'p' ("brer".data) c1 _
      (fun hcon => absurd (hc1.symm.trans hcon) (by decide))]
  apply expandCompoundRefs_none_none
  · rw [hclean]; exact hIBg
  · rw [hclean]; exact hPBg

/-- C4: `_expand_compound_refs` expands a compound citation holding two or
more dotted-decimal numbers separated by comma, ampersand, slash, or a
word-bounded `and` — the IB form `IB Sections <list>` and the PBRER form
`PBRER Sections <list>` — into one fully qualified citation per number,
preserving input order; a singleton `IB Section <num>` citation comes back
unchanged as a one-element list, and an `IB Table <num>` citation (any case,
any internal whitespace) is never expanded. -/
theorem expand_compound_refs_spec
    (n0 : Str) (parts : List (Sep × Str)) (m ib tb w2 w3 k : Str)
    (hn0c : ∀ c ∈ n0, c.isDigit = true ∨ c = '.')
    (hn0 : isDottedNum n0 = true)
    (hps : ∀ p ∈ parts, (∀ c ∈ p.2, c.isDigit = true ∨ c = '.')
      ∧ isDottedNum p.2 = true)
    (hne : parts ≠ [])
    (hmch : ∀ c ∈ m, c.isDigit = true ∨ c = '.')
    (hmdn : isDottedNum m = true)
    (hib : List.Forall₂ lcEq ib ("ib".data))
    (htb : List.Forall₂ lcEq tb ("table".data))
    (hw2 : ∀ c ∈ w2, isSpace c = true) (hw3 : ∀ c ∈ w3, isSpace c = true)
    (hkne : k ≠ []) (hkd : ∀ c ∈ k, c.isDigit = true) :
    expandCompoundRefs (mkIBCompound n0 parts)
      = ("IB Section ".data ++ n0)
        :: parts.map (fun p => "IB Section ".data ++ p.2)
    ∧ expandCompoundRefs (mkPBCompound n0 parts)
      = ("PBRER ".data ++ n0) :: parts.map (fun p => "PBRER ".data ++ p.2)
    ∧ expandCompoundRefs ("IB Section ".data ++ m) = ["IB Section ".data ++ m]
    ∧ expandCompoundRefs (ib ++ w2 ++ tb ++ w3 ++ k)
      = [ib ++ w2 ++ tb ++ w3 ++ k] :=
  ⟨expand_mkIB n0 parts hn0c hn0 hps hne,
   expand_mkPB n0 parts hn0c hn0 hps hne,
   expand_singleton_ib m hmch hmdn,
   expand_ib_table ib tb w2 w3 k hib htb hw2 hw3 hkne hkd⟩

set_option maxRecDepth 4000 in
/-- Witness for C4 at the concrete citations of the claim: the compound
`IB Sections 1.2, 3.2` and a PBRER compound expand one citation per number,
while `IB Section 2.3` and `IB Table 30` come back unchanged. -/
theorem expand_compound_refs_spec_witness :
    expandCompoundRefs ("IB Sections 1.2, 3.2".data)
      = ["IB Section 1.2".data, "IB Section 3.2".data]
    ∧ expandCompoundRefs ("PBRER Sections 4.1 & 4.2".data)
      = ["PBRER 4.1".data, "PBRER 4.2".data]
    ∧ expandCompoundRefs ("IB Section 2.3".data) = ["IB Section 2.3".data]
    ∧ expandCompoundRefs ("IB Table 30".data) = ["IB Table 30".data] := by
  have h := expand_compound_refs_spec ("1.2".data)
    [(Sep.comma, ("3.2".data))] ("2.3".data) ("IB".data) ("Table".data)
    [' '] [' '] ("30".data)
    (by decide) (by decide) (by decide) (by decide) (by decide) (by decide)
    (by decide) (by decide) (by decide) (by decide) (by decide) (by decide)
  have h2 := expand_compound_refs_spec ("4.1".data)
    [(Sep.amp, ("4.2".data))] ("2.3".data) ("IB".data) ("Table".data)
    [' '] [' '] ("30".data)
    (by decide) (by decide) (by decide) (by decide) (by decide) (by decide)
    (by decide) (by decide) (by decide) (by decide) (by decide) (by decide)
  refine ⟨?_, ?_, ?_, ?_⟩
  · rw [show ("IB Sections 1.2, 3.2".data)
      = mkIBCompound ("1.2".data) [(Sep.comma, ("3.2".data))] from rfl]
    rw [h.1]
    rfl
  · rw [show ("PBRER Sections 4.1 & 4.2".data)
      = mkPBCompound ("4.1".data) [(Sep.amp, ("4.2".data))] from rfl]
    rw [h2.2.1]
    rfl
  · rw [show ("IB Section 2.3".data)
      = "IB Section ".data ++ ("2.3".data) from rfl]
    exact h.2.2.1
  · rw [show ("IB Table 30".data)
      = "IB".data ++ [' '] ++ "Table".data ++ [' '] ++ ("30".data) from rfl]
    exact h.2.2.2

end Dsrc
